import Mathlib

set_option maxRecDepth 1000000
set_option maxHeartbeats 1000000

/-!
Shallow embedding of the saturate crate (src/lib.rs): saturating numeric
conversions between the 15 primitive types bool, i8..i128, u8..u128,
isize, usize, f32, f64.

Integers are modelled as mathematical integers together with the type's
range; floating point values are modelled as NaN, signed infinity, or a
finite rational.  Rust's `TryFrom` for integers is modelled as an `Option`
(`none` is the error branch, so a `.unwrap()` panic would surface as a
`none` result of the conversion).  The `as` casts used by the crate are
modelled after the Rust reference semantics: int -> float and f64 -> f32
round to nearest (ties to even) and overflow to the appropriately signed
infinity; float -> int truncates toward zero, saturates at the integer
bounds, and sends NaN to 0.

The pointer width (16, 32 or 64, enforced by a compile_error! in the
source) is an explicit parameter `pw`.
-/

namespace Saturate

/-- Model of an f32/f64 value: NaN, a signed infinity, or a finite rational. -/
inductive Fp where
  | nan : Fp
  | inf (neg : Bool) : Fp
  | finite (q : ℚ) : Fp
deriving DecidableEq

/-- The 15 primitive types supported by the crate. -/
inductive Ty where
  | bool | i8 | u8 | i16 | u16 | i32 | u32 | i64 | u64 | i128 | u128
  | isize | usize | f32 | f64
deriving DecidableEq

/-- A runtime value: an integer (for the 12 integer types), a boolean, or a float. -/
inductive Val where
  | int (n : ℤ) : Val
  | b (v : Bool) : Val
  | fp (x : Fp) : Val
deriving DecidableEq

/-- Signed integer types. -/
def Ty.signed : Ty → Bool
  | .i8 | .i16 | .i32 | .i64 | .i128 | .isize => true
  | _ => false

/-- Unsigned integer types. -/
def Ty.unsigned : Ty → Bool
  | .u8 | .u16 | .u32 | .u64 | .u128 | .usize => true
  | _ => false

/-- Integer types (signed or unsigned). -/
def Ty.isInt (t : Ty) : Bool := t.signed || t.unsigned

/-- Floating point types. -/
def Ty.isFloat : Ty → Bool
  | .f32 | .f64 => true
  | _ => false

/-- Bit width of a type; `pw` is the target pointer width used for isize/usize. -/
def Ty.width (pw : ℕ) : Ty → ℕ
  | .bool => 1
  | .i8 | .u8 => 8
  | .i16 | .u16 => 16
  | .i32 | .u32 => 32
  | .i64 | .u64 => 64
  | .i128 | .u128 => 128
  | .isize | .usize => pw
  | .f32 => 32
  | .f64 => 64

/-- Minimum value of an integer type (MIN in the source). -/
def Ty.lo (pw : ℕ) (t : Ty) : ℤ :=
  if t.signed then -(2 ^ (t.width pw - 1)) else 0

/-- Maximum value of an integer type (MAX in the source). -/
def Ty.hi (pw : ℕ) (t : Ty) : ℤ :=
  if t.signed then 2 ^ (t.width pw - 1) - 1 else 2 ^ t.width pw - 1

/-- Rust's integer TryFrom: succeeds exactly when the value is in range. -/
def tryFrom (l h n : ℤ) : Option ℤ :=
  if l ≤ n ∧ n ≤ h then some n else none

/-- Body of impl_clamp (lib.rs line 80):
try_from(value.min(from(MAX)).max(from(MIN))).unwrap(). -/
def clampFn (dLo dHi : ℤ) : Val → Option Val
  | .int n => (tryFrom dLo dHi (max (min n dHi) dLo)).map .int
  | _ => none

/-- Body of impl_clamp_unsigned (lib.rs line 105):
try_from(value.min(try_from(MAX).unwrap())).unwrap(); the inner try_from
converts the destination MAX into the (unsigned) source type. -/
def clampUnsignedFn (sLo sHi dLo dHi : ℤ) : Val → Option Val
  | .int n => (tryFrom sLo sHi dHi).bind fun m => (tryFrom dLo dHi (min n m)).map .int
  | _ => none

/-- Body of impl_clamp_signed (lib.rs line 127): try_from(value.max(0)).unwrap(). -/
def clampSignedFn (dLo dHi : ℤ) : Val → Option Val
  | .int n => (tryFrom dLo dHi (max n 0)).map .int
  | _ => none

/-- Body of impl_gt_zero (lib.rs line 147): value > 0. -/
def gtZeroFn : Val → Option Val
  | .int n => some (.b (decide (0 < n)))
  | _ => none

/-- The float comparison value > 0.0 of impl_gt_zero_float (lib.rs line 162);
NaN compares false, as in IEEE. -/
def fpGtZero : Fp → Bool
  | .nan => false
  | .inf neg => !neg
  | .finite q => decide (0 < q)

/-- Body of impl_gt_zero_float (lib.rs line 162). -/
def gtZeroFloatFn : Val → Option Val
  | .fp x => some (.b (fpGtZero x))
  | _ => none

/-- Body of impl_from for integer destinations (lib.rs lines 44-67): the
lossless From embedding; bool embeds as 0/1. -/
def fromIntFn : Val → Option Val
  | .int n => some (.int n)
  | .b v => some (.int (if v then 1 else 0))
  | _ => none

/-- Body of impl_from for small integers into floats (lib.rs lines 69-70):
the embedding is exact. -/
def fromIntFloatFn : Val → Option Val
  | .int n => some (.fp (.finite (n : ℚ)))
  | _ => none

/-- Body of impl_from for f32 into f64 (lib.rs line 70): exact widening,
preserving NaN and infinities. -/
def fromF32F64Fn : Val → Option Val
  | .fp x => some (.fp x)
  | _ => none

/-- Body of impl_bool_float (lib.rs line 208): from(u8::from(value)). -/
def boolFloatFn : Val → Option Val
  | .b v => some (.fp (.finite (if v then 1 else 0)))
  | _ => none

/-- Truncation toward zero of a rational, as in Rust float -> int casts. -/
def ratTrunc (q : ℚ) : ℤ := if q < 0 then ⌈q⌉ else ⌊q⌋

/-- Body of impl_as for float sources and integer destinations (lib.rs
lines 189-200): Rust's saturating cast (rust-lang/rust#10184): NaN goes to
0, infinities go to the bounds, finite values truncate toward zero and are
clamped into the destination range. -/
def castFpIntFn (dLo dHi : ℤ) : Val → Option Val
  | .fp .nan => some (.int 0)
  | .fp (.inf neg) => some (.int (if neg then dLo else dHi))
  | .fp (.finite q) => some (.int (max dLo (min (ratTrunc q) dHi)))
  | _ => none

/-- Number of binary digits, by fuel-bounded recursion so that it reduces
in the kernel. -/
def natBitsAux : ℕ → ℕ → ℕ
  | 0, _ => 0
  | fuel+1, n => if n = 0 then 0 else natBitsAux fuel (n / 2) + 1

/-- Number of binary digits of a natural number (0 for 0). -/
def natBits (n : ℕ) : ℕ := natBitsAux 4000 n

/-- Round n / d to the nearest integer, ties to even (d > 0). -/
def rneNat (n d : ℕ) : ℕ :=
  let q := n / d
  let r := n % d
  if 2 * r < d then q else if d < 2 * r then q + 1 else if q % 2 = 0 then q else q + 1

/-- Round a natural number to a float with mantissa precision prec and top
ulp exponent maxE (so the largest finite value is (2^prec - 1) * 2^maxE);
none means overflow to infinity.  This is the IEEE round-to-nearest,
ties-to-even conversion used by Rust's int -> float `as` casts. -/
def roundNatPos (prec maxE : ℕ) (n : ℕ) : Option ℚ :=
  if n < 2 ^ prec then some (n : ℚ)
  else
    let e := natBits n - prec
    let m := rneNat n (2 ^ e)
    if (2 ^ prec - 1) * 2 ^ maxE < m * 2 ^ e then none else some ((m * 2 ^ e : ℕ) : ℚ)

/-- Body of impl_as for integer sources and float destinations (lib.rs
lines 184-186): round to nearest, saturating at infinity (see the comment
at lib.rs line 184).  For f32, prec = 24 and maxE = 104; for f64,
prec = 53 and maxE = 971. -/
def castIntFpFn (prec maxE : ℕ) : Val → Option Val
  | .int n =>
    if 0 ≤ n then
      match roundNatPos prec maxE n.toNat with
      | some q => some (.fp (.finite q))
      | none => some (.fp (.inf false))
    else
      match roundNatPos prec maxE (-n).toNat with
      | some q => some (.fp (.finite (-q)))
      | none => some (.fp (.inf true))
  | _ => none

/-- Truth of q being at least 2^k, for a rational q > 0 and k an integer,
computed without rational division. -/
def qGeTwoPow (q : ℚ) (k : ℤ) : Bool :=
  if 0 ≤ k then decide ((q.den : ℤ) * 2 ^ k.toNat ≤ q.num)
  else decide ((q.den : ℤ) ≤ q.num * 2 ^ (-k).toNat)

/-- Floor of the base-2 logarithm of a positive rational. -/
def floorLog2Q (q : ℚ) : ℤ :=
  let d : ℤ := (natBits q.num.toNat : ℤ) - (natBits q.den : ℤ)
  if qGeTwoPow q d then d else d - 1

/-- Round x to the nearest integer, ties to even. -/
def rneQ (x : ℚ) : ℤ :=
  let f := ⌊x⌋
  let r := x - f
  if r < 1/2 then f else if 1/2 < r then f + 1 else if f % 2 = 0 then f else f + 1

/-- The largest finite f32 value, (2^24 - 1) * 2^104. -/
def f32MaxQ : ℚ := 2 ^ 128 - 2 ^ 104

/-- IEEE round-to-nearest (ties to even) of a positive rational to an f32,
with subnormals (smallest ulp 2^(-149)); none means overflow to infinity. -/
def roundRatPosF32 (q : ℚ) : Option ℚ :=
  let e : ℤ := max (-149) (floorLog2Q q - 23)
  let m : ℤ := rneQ (q / 2 ^ e)
  if f32MaxQ < (m : ℚ) * 2 ^ e then none else some ((m : ℚ) * 2 ^ e)

/-- Body of impl_as for f64 -> f32 (lib.rs line 187): Rust's `as` rounds to
nearest, saturates at infinity and preserves NaN and infinities. -/
def castF64F32 : Fp → Fp
  | .nan => .nan
  | .inf s => .inf s
  | .finite q =>
    if q = 0 then .finite 0
    else if 0 < q then
      match roundRatPosF32 q with
      | some v => .finite v
      | none => .inf false
    else
      match roundRatPosF32 (-q) with
      | some v => .finite (-v)
      | none => .inf true

/-- Value-level wrapper for the f64 -> f32 cast. -/
def castF64F32Fn : Val → Option Val
  | .fp x => some (.fp (castF64F32 x))
  | _ => none

/-- The conversion table for the 13 fixed-width types (everything except
isize/usize, which route through this table).  Each group of match arms
mirrors one macro invocation list of lib.rs. -/
def convertFixed (pw : ℕ) (s d : Ty) (v : Val) : Option Val :=
  match s, d with
  -- impl_self! (line 42)
  | .bool, .bool | .i8, .i8 | .u8, .u8 | .i16, .i16 | .u16, .u16
  | .i32, .i32 | .u32, .u32 | .i64, .i64 | .u64, .u64
  | .i128, .i128 | .u128, .u128 | .f64, .f64 | .f32, .f32 => some v
  -- impl_from! into unsigned destinations (lines 57-61)
  | .bool, .u8
  | .bool, .u16 | .u8, .u16
  | .bool, .u32 | .u8, .u32 | .u16, .u32
  | .bool, .u64 | .u8, .u64 | .u16, .u64 | .u32, .u64
  | .bool, .u128 | .u8, .u128 | .u16, .u128 | .u32, .u128 | .u64, .u128 => fromIntFn v
  -- impl_from! into signed destinations (lines 63-67)
  | .bool, .i8
  | .bool, .i16 | .i8, .i16 | .u8, .i16
  | .bool, .i32 | .i8, .i32 | .u8, .i32 | .i16, .i32 | .u16, .i32
  | .bool, .i64 | .i8, .i64 | .u8, .i64 | .i16, .i64 | .u16, .i64 | .i32, .i64 | .u32, .i64
  | .bool, .i128 | .i8, .i128 | .u8, .i128 | .i16, .i128 | .u16, .i128
  | .i32, .i128 | .u32, .i128 | .i64, .i128 | .u64, .i128 => fromIntFn v
  -- impl_from! into floats (lines 69-70), exact embeds
  | .i8, .f32 | .u8, .f32 | .i16, .f32 | .u16, .f32 => fromIntFloatFn v
  | .i8, .f64 | .u8, .f64 | .i16, .f64 | .u16, .f64 | .i32, .f64 | .u32, .f64 => fromIntFloatFn v
  | .f32, .f64 => fromF32F64Fn v
  -- impl_clamp! (lines 87-95)
  | .i16, .u8 | .u16, .u8 | .i32, .u8 | .u32, .u8
  | .i64, .u8 | .u64, .u8 | .i128, .u8 | .u128, .u8 => clampFn (Ty.lo pw .u8) (Ty.hi pw .u8) v
  | .i32, .u16 | .u32, .u16 | .i64, .u16 | .u64, .u16
  | .i128, .u16 | .u128, .u16 => clampFn (Ty.lo pw .u16) (Ty.hi pw .u16) v
  | .i64, .u32 | .u64, .u32 | .i128, .u32 | .u128, .u32 => clampFn (Ty.lo pw .u32) (Ty.hi pw .u32) v
  | .i128, .u64 | .u128, .u64 => clampFn (Ty.lo pw .u64) (Ty.hi pw .u64) v
  | .i16, .i8 | .i32, .i8 | .i64, .i8 | .i128, .i8 => clampFn (Ty.lo pw .i8) (Ty.hi pw .i8) v
  | .i32, .i16 | .i64, .i16 | .i128, .i16 => clampFn (Ty.lo pw .i16) (Ty.hi pw .i16) v
  | .i64, .i32 | .i128, .i32 => clampFn (Ty.lo pw .i32) (Ty.hi pw .i32) v
  | .i128, .i64 => clampFn (Ty.lo pw .i64) (Ty.hi pw .i64) v
  -- impl_clamp_unsigned! (lines 112-116); the usize => isize case is in convert
  | .u8, .i8 => clampUnsignedFn (Ty.lo pw .u8) (Ty.hi pw .u8) (Ty.lo pw .i8) (Ty.hi pw .i8) v
  | .u16, .i8 => clampUnsignedFn (Ty.lo pw .u16) (Ty.hi pw .u16) (Ty.lo pw .i8) (Ty.hi pw .i8) v
  | .u32, .i8 => clampUnsignedFn (Ty.lo pw .u32) (Ty.hi pw .u32) (Ty.lo pw .i8) (Ty.hi pw .i8) v
  | .u64, .i8 => clampUnsignedFn (Ty.lo pw .u64) (Ty.hi pw .u64) (Ty.lo pw .i8) (Ty.hi pw .i8) v
  | .u128, .i8 => clampUnsignedFn (Ty.lo pw .u128) (Ty.hi pw .u128) (Ty.lo pw .i8) (Ty.hi pw .i8) v
  | .u16, .i16 => clampUnsignedFn (Ty.lo pw .u16) (Ty.hi pw .u16) (Ty.lo pw .i16) (Ty.hi pw .i16) v
  | .u32, .i16 => clampUnsignedFn (Ty.lo pw .u32) (Ty.hi pw .u32) (Ty.lo pw .i16) (Ty.hi pw .i16) v
  | .u64, .i16 => clampUnsignedFn (Ty.lo pw .u64) (Ty.hi pw .u64) (Ty.lo pw .i16) (Ty.hi pw .i16) v
  | .u128, .i16 => clampUnsignedFn (Ty.lo pw .u128) (Ty.hi pw .u128) (Ty.lo pw .i16) (Ty.hi pw .i16) v
  | .u32, .i32 => clampUnsignedFn (Ty.lo pw .u32) (Ty.hi pw .u32) (Ty.lo pw .i32) (Ty.hi pw .i32) v
  | .u64, .i32 => clampUnsignedFn (Ty.lo pw .u64) (Ty.hi pw .u64) (Ty.lo pw .i32) (Ty.hi pw .i32) v
  | .u128, .i32 => clampUnsignedFn (Ty.lo pw .u128) (Ty.hi pw .u128) (Ty.lo pw .i32) (Ty.hi pw .i32) v
  | .u64, .i64 => clampUnsignedFn (Ty.lo pw .u64) (Ty.hi pw .u64) (Ty.lo pw .i64) (Ty.hi pw .i64) v
  | .u128, .i64 => clampUnsignedFn (Ty.lo pw .u128) (Ty.hi pw .u128) (Ty.lo pw .i64) (Ty.hi pw .i64) v
  | .u128, .i128 => clampUnsignedFn (Ty.lo pw .u128) (Ty.hi pw .u128) (Ty.lo pw .i128) (Ty.hi pw .i128) v
  -- impl_clamp_signed! (lines 134-138); the isize => usize case is in convert
  | .i8, .u8 => clampSignedFn (Ty.lo pw .u8) (Ty.hi pw .u8) v
  | .i8, .u16 | .i16, .u16 => clampSignedFn (Ty.lo pw .u16) (Ty.hi pw .u16) v
  | .i8, .u32 | .i16, .u32 | .i32, .u32 => clampSignedFn (Ty.lo pw .u32) (Ty.hi pw .u32) v
  | .i8, .u64 | .i16, .u64 | .i32, .u64 | .i64, .u64 => clampSignedFn (Ty.lo pw .u64) (Ty.hi pw .u64) v
  | .i8, .u128 | .i16, .u128 | .i32, .u128 | .i64, .u128
  | .i128, .u128 => clampSignedFn (Ty.lo pw .u128) (Ty.hi pw .u128) v
  -- impl_gt_zero! (line 154) for the fixed integer types
  | .i8, .bool | .u8, .bool | .i16, .bool | .u16, .bool | .i32, .bool
  | .u32, .bool | .i64, .bool | .u64, .bool | .i128, .bool | .u128, .bool => gtZeroFn v
  -- impl_gt_zero_float! (line 169)
  | .f32, .bool | .f64, .bool => gtZeroFloatFn v
  -- impl_as! into floats (lines 185-187)
  | .i32, .f32 | .u32, .f32 | .i64, .f32 | .u64, .f32
  | .i128, .f32 | .u128, .f32 => castIntFpFn 24 104 v
  | .i64, .f64 | .u64, .f64 | .i128, .f64 | .u128, .f64 => castIntFpFn 53 971 v
  | .f64, .f32 => castF64F32Fn v
  -- impl_as! from floats into integers (lines 190-200)
  | .f32, .u8 | .f64, .u8 => castFpIntFn (Ty.lo pw .u8) (Ty.hi pw .u8) v
  | .f32, .u16 | .f64, .u16 => castFpIntFn (Ty.lo pw .u16) (Ty.hi pw .u16) v
  | .f32, .u32 | .f64, .u32 => castFpIntFn (Ty.lo pw .u32) (Ty.hi pw .u32) v
  | .f32, .u64 | .f64, .u64 => castFpIntFn (Ty.lo pw .u64) (Ty.hi pw .u64) v
  | .f32, .u128 | .f64, .u128 => castFpIntFn (Ty.lo pw .u128) (Ty.hi pw .u128) v
  | .f32, .i8 | .f64, .i8 => castFpIntFn (Ty.lo pw .i8) (Ty.hi pw .i8) v
  | .f32, .i16 | .f64, .i16 => castFpIntFn (Ty.lo pw .i16) (Ty.hi pw .i16) v
  | .f32, .i32 | .f64, .i32 => castFpIntFn (Ty.lo pw .i32) (Ty.hi pw .i32) v
  | .f32, .i64 | .f64, .i64 => castFpIntFn (Ty.lo pw .i64) (Ty.hi pw .i64) v
  | .f32, .i128 | .f64, .i128 => castFpIntFn (Ty.lo pw .i128) (Ty.hi pw .i128) v
  -- impl_bool_float! (line 215)
  | .bool, .f32 | .bool, .f64 => boolFloatFn v
  -- pairs involving isize/usize are handled by convert, not here
  | _, _ => none

/-- The unsigned fixed-width type matching the pointer width (the $equ type
of the size module, lib.rs lines 247-315). -/
def uEqu (pw : ℕ) : Ty :=
  if pw = 16 then .u16 else if pw = 32 then .u32 else .u64

/-- The signed fixed-width type matching the pointer width. -/
def sEqu (pw : ℕ) : Ty :=
  if pw = 16 then .i16 else if pw = 32 then .i32 else .i64

/-- SaturatingFrom::saturating_from for destination d and source s, at
pointer width pw.  isize/usize conversions route through the matching
fixed-width type via impl_equivalent!, except the four direct
implementations (impl_self, usize => isize, isize => usize, and => bool). -/
def convert (pw : ℕ) (s d : Ty) (v : Val) : Option Val :=
  match s, d with
  | .usize, .usize => some v                                            -- impl_self (line 42)
  | .isize, .isize => some v                                            -- impl_self (line 42)
  | .usize, .isize =>
    clampUnsignedFn (Ty.lo pw .usize) (Ty.hi pw .usize) (Ty.lo pw .isize) (Ty.hi pw .isize) v
      -- impl_clamp_unsigned (line 117)
  | .isize, .usize => clampSignedFn (Ty.lo pw .usize) (Ty.hi pw .usize) v -- impl_clamp_signed (line 139)
  | .usize, .bool => gtZeroFn v                                         -- impl_gt_zero (line 154)
  | .isize, .bool => gtZeroFn v                                         -- impl_gt_zero (line 154)
  | .usize, d => convertFixed pw (uEqu pw) d v    -- impl_equivalent: $dst::saturating_from(value as $equ)
  | .isize, d => convertFixed pw (sEqu pw) d v
  | s, .usize => convertFixed pw s (uEqu pw) v    -- impl_equivalent: $equ::saturating_from(value) as usize
  | s, .isize => convertFixed pw s (sEqu pw) v
  | s, d => convertFixed pw s d v

/-- The blanket impl of SaturatingInto (lib.rs lines 328-336): its body is
T::saturating_from(self). -/
def saturatingInto (pw : ℕ) (s d : Ty) (v : Val) : Option Val :=
  convert pw s d v

/-- A value is a valid inhabitant of a type: booleans for bool, any float
value for f32/f64, and an in-range integer for the integer types. -/
def validB (pw : ℕ) : Ty → Val → Bool
  | .bool, .b _ => true
  | .f32, .fp _ => true
  | .f64, .fp _ => true
  | t, .int n => t.isInt && decide (Ty.lo pw t ≤ n) && decide (n ≤ Ty.hi pw t)
  | _, _ => false

/-- The supported pointer widths (the cfg gate at lib.rs lines 240-245). -/
def PW (pw : ℕ) : Prop := pw = 16 ∨ pw = 32 ∨ pw = 64

/-- Specification form of the float to integer conversion, following the
spec wording (priority list of section 4.9): NaN to zero, values at or
below the minimum to the minimum, values at or above the maximum to the
maximum, otherwise truncation toward zero. -/
def floatToIntSpec (dLo dHi : ℤ) : Fp → ℤ
  | .nan => 0
  | .inf neg => if neg then dLo else dHi
  | .finite q => if q ≤ (dLo : ℚ) then dLo else if (dHi : ℚ) ≤ q then dHi else ratTrunc q

/-- A finite binary floating-point value with mantissa precision prec and
smallest ulp exponent minE, following the spec wording "representable
float" (no upper magnitude bound: the nearest-value statements below are
over all finite-precision values, which only strengthens them). -/
def reprFp (prec : ℕ) (minE : ℤ) (w : ℚ) : Prop :=
  ∃ m E : ℤ, |m| < 2 ^ prec ∧ minE ≤ E ∧ w = (m : ℚ) * 2 ^ E

/-- v is a nearest representable float to x, following the spec wording
"rounded to the nearest representable float": v is representable and no
representable value is strictly closer to x. -/
def isNearestFp (prec : ℕ) (minE : ℤ) (x v : ℚ) : Prop :=
  reprFp prec minE v ∧ ∀ w : ℚ, reprFp prec minE w → |v - x| ≤ |w - x|


/-! Behaviour of the individual macro bodies. -/

theorem clampFn_spec (dLo dHi n : ℤ) (h : dLo ≤ dHi) :
    clampFn dLo dHi (.int n)
      = some (.int (if n < dLo then dLo else if dHi < n then dHi else n)) := by
  have hc : dLo ≤ max (min n dHi) dLo ∧ max (min n dHi) dLo ≤ dHi :=
    ⟨le_max_right _ _, max_le (min_le_right _ _) h⟩
  have hval : max (min n dHi) dLo = if n < dLo then dLo else if dHi < n then dHi else n := by
    simp only [max_def, min_def]
    split_ifs <;> omega
  simp only [clampFn, tryFrom]
  rw [if_pos hc, hval]
  rfl

theorem clampSignedFn_spec (dHi n : ℤ) (h0 : 0 ≤ dHi) (hn : n ≤ dHi) :
    clampSignedFn 0 dHi (.int n)
      = some (.int (if n < 0 then 0 else if dHi < n then dHi else n)) := by
  have hc : (0 : ℤ) ≤ max n 0 ∧ max n 0 ≤ dHi := by
    constructor
    · exact le_max_right _ _
    · simp only [max_def]; split_ifs <;> omega
  have hval : max n 0 = if n < 0 then 0 else if dHi < n then dHi else n := by
    simp only [max_def]
    split_ifs <;> omega
  simp only [clampSignedFn, tryFrom]
  rw [if_pos hc, hval]
  rfl

theorem clampUnsignedFn_spec (sLo sHi dLo dHi n : ℤ)
    (h1 : sLo ≤ dHi) (h2 : dHi ≤ sHi) (h3 : dLo ≤ 0) (h4 : 0 ≤ dHi) (hn : 0 ≤ n) :
    clampUnsignedFn sLo sHi dLo dHi (.int n)
      = some (.int (if dHi < n then dHi else n)) := by
  have hc1 : sLo ≤ dHi ∧ dHi ≤ sHi := ⟨h1, h2⟩
  have hc2 : dLo ≤ min n dHi ∧ min n dHi ≤ dHi := by
    constructor
    · simp only [min_def]; split_ifs <;> omega
    · exact min_le_right _ _
  have hval : min n dHi = if dHi < n then dHi else n := by
    simp only [min_def]; split_ifs <;> omega
  simp only [clampUnsignedFn, tryFrom]
  rw [if_pos hc1]
  show (if dLo ≤ min n dHi ∧ min n dHi ≤ dHi then some (min n dHi) else none).map Val.int = _
  rw [if_pos hc2, hval]
  rfl

theorem castFpIntFn_spec (dLo dHi : ℤ) (hl : dLo ≤ 0) (hh : 0 ≤ dHi) (x : Fp) :
    castFpIntFn dLo dHi (.fp x) = some (.int (floatToIntSpec dLo dHi x)) := by
  cases x with
  | nan => rfl
  | inf neg => rfl
  | finite q =>
    show some (Val.int (max dLo (min (ratTrunc q) dHi))) = some (Val.int _)
    refine congrArg (fun z => some (Val.int z)) ?_
    show _ = if q ≤ (dLo : ℚ) then dLo else if (dHi : ℚ) ≤ q then dHi else ratTrunc q
    by_cases hqlo : q ≤ (dLo : ℚ)
    · rw [if_pos hqlo]
      have hT : ratTrunc q ≤ dLo := by
        unfold ratTrunc
        split_ifs
        · exact le_trans (Int.ceil_mono hqlo) (le_of_eq (Int.ceil_intCast dLo))
        · exact le_trans (Int.floor_mono hqlo) (le_of_eq (Int.floor_intCast dLo))
      simp only [max_def, min_def]
      split_ifs <;> omega
    · rw [if_neg hqlo]
      by_cases hqhi : (dHi : ℚ) ≤ q
      · rw [if_pos hqhi]
        have h0q : ¬ q < 0 := by
          have : (0 : ℚ) ≤ (dHi : ℚ) := by exact_mod_cast hh
          linarith [le_trans this hqhi]
        have hT : dHi ≤ ratTrunc q := by
          unfold ratTrunc
          rw [if_neg h0q]
          exact le_trans (le_of_eq (Int.floor_intCast dHi).symm) (Int.floor_mono hqhi)
        simp only [max_def, min_def]
        split_ifs <;> omega
      · rw [if_neg hqhi]
        have hlt1 : (dLo : ℚ) < q := lt_of_not_le hqlo
        have hlt2 : q < (dHi : ℚ) := lt_of_not_le hqhi
        have hA : dLo ≤ ratTrunc q := by
          unfold ratTrunc
          split_ifs with hq0
          · have : (dLo : ℚ) < (⌈q⌉ : ℚ) := lt_of_lt_of_le hlt1 (Int.le_ceil q)
            exact le_of_lt (by exact_mod_cast this)
          · have : (dLo : ℚ) ≤ (⌊q⌋ : ℚ) := by
              have h0 : (0 : ℚ) ≤ q := le_of_not_lt hq0
              have : (dLo : ℚ) ≤ 0 := by exact_mod_cast hl
              calc (dLo : ℚ) ≤ 0 := this
                _ ≤ (⌊q⌋ : ℚ) := by exact_mod_cast Int.floor_nonneg.mpr h0
            exact_mod_cast this
        have hB : ratTrunc q ≤ dHi := by
          unfold ratTrunc
          split_ifs with hq0
          · have hc : (⌈q⌉ : ℚ) ≤ 0 := by
              have : ⌈q⌉ ≤ ⌈(0 : ℚ)⌉ := Int.ceil_mono (le_of_lt hq0)
              simpa using (by exact_mod_cast this : (⌈q⌉ : ℚ) ≤ ((⌈(0:ℚ)⌉ : ℤ) : ℚ))
            have : (⌈q⌉ : ℚ) ≤ (dHi : ℚ) := le_trans hc (by exact_mod_cast hh)
            exact_mod_cast this
          · have : (⌊q⌋ : ℚ) < (dHi : ℚ) := lt_of_le_of_lt (Int.floor_le q) hlt2
            exact le_of_lt (by exact_mod_cast this)
        rw [min_eq_left hB, max_eq_right hA]

/-! Bridge lemmas: each one states, for a pair (s, d) whose conversion
dispatches to a given macro body (hypothesis h0, discharged by rfl at each
use site), what the conversion returns. -/

theorem conv_clampFn_spec (pw : ℕ) (s d : Ty) (n : ℤ)
    (h0 : convert pw s d (.int n) = clampFn (Ty.lo pw d) (Ty.hi pw d) (.int n))
    (h : Ty.lo pw d ≤ Ty.hi pw d) :
    convert pw s d (.int n)
      = some (.int (if n < Ty.lo pw d then Ty.lo pw d
          else if Ty.hi pw d < n then Ty.hi pw d else n)) :=
  h0.trans (clampFn_spec _ _ n h)

theorem conv_clampFn_unsigned_spec (pw : ℕ) (s d : Ty) (n : ℤ)
    (h0 : convert pw s d (.int n) = clampFn (Ty.lo pw d) (Ty.hi pw d) (.int n))
    (hlo : Ty.lo pw d = 0) (hhi : 0 ≤ Ty.hi pw d) :
    convert pw s d (.int n)
      = some (.int (if n < 0 then 0 else if Ty.hi pw d < n then Ty.hi pw d else n)) := by
  rw [h0, hlo]
  exact clampFn_spec _ _ n hhi

theorem conv_clampSignedFn_spec (pw : ℕ) (s d : Ty) (n : ℤ)
    (h0 : convert pw s d (.int n) = clampSignedFn (Ty.lo pw d) (Ty.hi pw d) (.int n))
    (hlo : Ty.lo pw d = 0) (hhi : 0 ≤ Ty.hi pw d) (hn : n ≤ Ty.hi pw d) :
    convert pw s d (.int n)
      = some (.int (if n < 0 then 0 else if Ty.hi pw d < n then Ty.hi pw d else n)) := by
  rw [h0, hlo]
  exact clampSignedFn_spec _ n hhi hn

theorem conv_clampUnsignedFn_spec (pw : ℕ) (s d : Ty) (n : ℤ)
    (h0 : convert pw s d (.int n)
      = clampUnsignedFn (Ty.lo pw s) (Ty.hi pw s) (Ty.lo pw d) (Ty.hi pw d) (.int n))
    (h1 : Ty.lo pw s ≤ Ty.hi pw d) (h2 : Ty.hi pw d ≤ Ty.hi pw s)
    (h3 : Ty.lo pw d ≤ 0) (h4 : 0 ≤ Ty.hi pw d) (hn : 0 ≤ n) :
    convert pw s d (.int n) = some (.int (if Ty.hi pw d < n then Ty.hi pw d else n)) :=
  h0.trans (clampUnsignedFn_spec _ _ _ _ n h1 h2 h3 h4 hn)

theorem conv_castFpIntFn_spec (pw : ℕ) (s d : Ty) (x : Fp)
    (h0 : convert pw s d (.fp x) = castFpIntFn (Ty.lo pw d) (Ty.hi pw d) (.fp x))
    (hl : Ty.lo pw d ≤ 0) (hh : 0 ≤ Ty.hi pw d) :
    convert pw s d (.fp x) = some (.int (floatToIntSpec (Ty.lo pw d) (Ty.hi pw d) x)) :=
  h0.trans (castFpIntFn_spec _ _ hl hh x)

/-! The claims. -/

/-- C1.  Same-signedness narrowing (impl_clamp, lib.rs lines 72-95, plus the
isize/usize routing): for every pair of integer types with the same
signedness where the destination is strictly narrower, saturating_from
clamps the value into the destination's inclusive range; boundary values
pass through unchanged. -/
theorem thm_clamp_same_signedness (pw : ℕ) (hpw : PW pw) (s d : Ty)
    (hsi : s.isInt = true) (hdi : d.isInt = true) (hss : s.signed = d.signed)
    (hw : d.width pw < s.width pw) (n : ℤ)
    (h1 : Ty.lo pw s ≤ n) (h2 : n ≤ Ty.hi pw s) :
    convert pw s d (.int n)
      = some (.int (if n < Ty.lo pw d then Ty.lo pw d
          else if Ty.hi pw d < n then Ty.hi pw d else n)) := by
  rcases hpw with rfl | rfl | rfl <;> cases s <;> cases d <;>
    first
      | exact absurd hsi (by decide)
      | exact absurd hdi (by decide)
      | exact absurd hss (by decide)
      | exact absurd hw (by decide)
      | exact conv_clampFn_spec _ _ _ n (by rfl) (by decide)

theorem thm_clamp_same_signedness_witness :
    PW 64 ∧ Ty.isInt .u32 = true ∧ Ty.isInt .u16 = true ∧
      Ty.signed .u32 = Ty.signed .u16 ∧ Ty.width 64 .u16 < Ty.width 64 .u32 ∧
      Ty.lo 64 .u32 ≤ (1265431463 : ℤ) ∧ (1265431463 : ℤ) ≤ Ty.hi 64 .u32 ∧
      convert 64 .u32 .u16 (.int 1265431463) = some (.int 65535) :=
  ⟨Or.inr (Or.inr rfl), by decide, by decide, by decide, by decide, by decide, by decide,
    (thm_clamp_same_signedness 64 (Or.inr (Or.inr rfl)) .u32 .u16 (by decide) (by decide)
      (by decide) (by decide) 1265431463 (by decide) (by decide)).trans (by decide)⟩

/-- C2.  Signed to unsigned (impl_clamp_signed, lib.rs lines 119-139, and
impl_clamp for the narrowing cases, lines 87-90): negative values map to
zero, values above the destination maximum map to the maximum, everything
else converts exactly. -/
theorem thm_signed_to_unsigned (pw : ℕ) (hpw : PW pw) (s d : Ty)
    (hs : s.signed = true) (hd : d.unsigned = true) (n : ℤ)
    (h1 : Ty.lo pw s ≤ n) (h2 : n ≤ Ty.hi pw s) :
    convert pw s d (.int n)
      = some (.int (if n < 0 then 0 else if Ty.hi pw d < n then Ty.hi pw d else n)) := by
  rcases hpw with rfl | rfl | rfl <;> cases s <;> cases d <;>
    first
      | exact absurd hs (by decide)
      | exact absurd hd (by decide)
      | exact conv_clampFn_unsigned_spec _ _ _ n (by rfl) (by decide) (by decide)
      | exact conv_clampSignedFn_spec _ _ _ n (by rfl) (by decide) (by decide)
          (by exact h2.trans (by decide))

theorem thm_signed_to_unsigned_witness :
    PW 64 ∧ Ty.signed .i32 = true ∧ Ty.unsigned .u16 = true ∧
      Ty.lo 64 .i32 ≤ (-294865 : ℤ) ∧ (-294865 : ℤ) ≤ Ty.hi 64 .i32 ∧
      convert 64 .i32 .u16 (.int (-294865)) = some (.int 0) :=
  ⟨Or.inr (Or.inr rfl), by decide, by decide, by decide, by decide,
    (thm_signed_to_unsigned 64 (Or.inr (Or.inr rfl)) .i32 .u16 (by decide) (by decide)
      (-294865) (by decide) (by decide)).trans (by decide)⟩

/-- C3.  Unsigned to signed with insufficient destination width
(impl_clamp_unsigned, lib.rs lines 97-117, including the equal-width pairs
u128 to i128 and usize to isize): only an upper clamp at the destination
maximum is applied; no lower clamp ever fires. -/
theorem thm_unsigned_to_signed (pw : ℕ) (hpw : PW pw) (s d : Ty)
    (hs : s.unsigned = true) (hd : d.signed = true) (hw : d.width pw ≤ s.width pw)
    (n : ℤ) (h1 : 0 ≤ n) (h2 : n ≤ Ty.hi pw s) :
    convert pw s d (.int n)
      = some (.int (if Ty.hi pw d < n then Ty.hi pw d else n)) := by
  rcases hpw with rfl | rfl | rfl <;> cases s <;> cases d <;>
    first
      | exact absurd hs (by decide)
      | exact absurd hd (by decide)
      | exact absurd hw (by decide)
      | exact conv_clampUnsignedFn_spec _ _ _ n (by rfl) (by decide) (by decide) (by decide)
          (by decide) h1

theorem thm_unsigned_to_signed_witness :
    PW 64 ∧ Ty.unsigned .u16 = true ∧ Ty.signed .i8 = true ∧
      Ty.width 64 .i8 ≤ Ty.width 64 .u16 ∧ (0 : ℤ) ≤ 60954 ∧ (60954 : ℤ) ≤ Ty.hi 64 .u16 ∧
      convert 64 .u16 .i8 (.int 60954) = some (.int 127) :=
  ⟨Or.inr (Or.inr rfl), by decide, by decide, by decide, by decide, by decide,
    (thm_unsigned_to_signed 64 (Or.inr (Or.inr rfl)) .u16 .i8 (by decide) (by decide)
      (by decide) 60954 (by decide) (by decide)).trans (by decide)⟩

/-- C4.  Float to integer (impl_as, lib.rs lines 189-200, plus isize/usize
routing): NaN yields 0, values at or below the destination minimum
(including negative infinity) yield the minimum, values at or above the
destination maximum (including positive infinity) yield the maximum, and
every other value truncates toward zero. -/
theorem thm_float_to_int (pw : ℕ) (hpw : PW pw) (s d : Ty)
    (hs : s.isFloat = true) (hd : d.isInt = true) (x : Fp) :
    convert pw s d (.fp x) = some (.int (floatToIntSpec (Ty.lo pw d) (Ty.hi pw d) x)) := by
  rcases hpw with rfl | rfl | rfl <;> cases s <;> cases d <;>
    first
      | exact absurd hs (by decide)
      | exact absurd hd (by decide)
      | exact conv_castFpIntFn_spec _ _ _ x (by rfl) (by decide) (by decide)

theorem thm_float_to_int_witness :
    PW 64 ∧ Ty.isFloat .f64 = true ∧ Ty.isInt .u8 = true ∧
      convert 64 .f64 .u8 (.fp (.finite 300)) = some (.int 255) :=
  ⟨Or.inr (Or.inr rfl), by decide, by decide,
    (thm_float_to_int 64 (Or.inr (Or.inr rfl)) .f64 .u8 (by decide) (by decide)
      (.finite 300)).trans (by decide)⟩

/-- The boolean threshold characterisation for float values: true exactly
for positive infinity and positive finite values. -/
theorem fpGtZero_iff (x : Fp) :
    fpGtZero x = true ↔ x = .inf false ∨ ∃ q, x = .finite q ∧ 0 < q := by
  cases x with
  | nan => simp [fpGtZero]
  | inf neg => cases neg <;> simp [fpGtZero]
  | finite q => simp [fpGtZero]

/-- C6.  Conversion to bool (impl_gt_zero and impl_gt_zero_float, lib.rs
lines 141-169): the result is true exactly when the source value is
strictly greater than zero; NaN and negative infinity give false, positive
infinity gives true. -/
theorem thm_to_bool (pw : ℕ) (s : Ty) :
    (s.isInt = true → ∀ n : ℤ,
        convert pw s .bool (.int n) = some (.b (decide (0 < n)))) ∧
    (s.isFloat = true → ∀ x : Fp,
        ∃ r : Bool, convert pw s .bool (.fp x) = some (.b r) ∧
          (r = true ↔ x = .inf false ∨ ∃ q, x = .finite q ∧ 0 < q)) := by
  constructor
  · intro hs n
    cases s <;> first | exact absurd hs (by decide) | rfl
  · intro hs x
    cases s <;>
      first
        | exact absurd hs (by decide)
        | exact ⟨fpGtZero x, rfl, fpGtZero_iff x⟩

theorem thm_to_bool_witness :
    Ty.isInt .i8 = true ∧ Ty.isFloat .f32 = true ∧
      convert 64 .i8 .bool (.int (-1)) = some (.b false) ∧
      convert 64 .i8 .bool (.int 1) = some (.b true) ∧
      convert 64 .i8 .bool (.int 0) = some (.b false) ∧
      convert 64 .f32 .bool (.fp .nan) = some (.b false) :=
  ⟨by decide, by decide,
    ((thm_to_bool 64 .i8).1 (by decide) (-1)).trans (by decide),
    ((thm_to_bool 64 .i8).1 (by decide) 1).trans (by decide),
    ((thm_to_bool 64 .i8).1 (by decide) 0).trans (by decide),
    by
      obtain ⟨r, hr, hiff⟩ := (thm_to_bool 64 .f32).2 (by decide) .nan
      have : r = false := by
        cases r
        · rfl
        · rcases hiff.mp rfl with h | ⟨q, hq, _⟩
          · exact Fp.noConfusion h
          · exact Fp.noConfusion hq
      rw [hr, this]⟩

/-! Validity helpers and totality. -/

theorem validB_int_intro (pw : ℕ) (t : Ty) (n : ℤ) (ht : t.isInt = true)
    (h1 : Ty.lo pw t ≤ n) (h2 : n ≤ Ty.hi pw t) : validB pw t (.int n) = true := by
  cases t <;> simp_all [validB, Ty.isInt, Ty.signed, Ty.unsigned]

theorem validB_int_elim (pw : ℕ) (t : Ty) (v : Val) (ht : t.isInt = true)
    (hv : validB pw t v = true) :
    ∃ n, v = .int n ∧ Ty.lo pw t ≤ n ∧ n ≤ Ty.hi pw t := by
  cases t <;> cases v <;> simp_all [validB, Ty.isInt, Ty.signed, Ty.unsigned]

theorem validB_bool_elim (pw : ℕ) (v : Val) (hv : validB pw .bool v = true) :
    ∃ b, v = .b b := by
  cases v <;> simp_all [validB, Ty.isInt, Ty.signed, Ty.unsigned]

theorem validB_fp_elim (pw : ℕ) (t : Ty) (v : Val) (ht : t.isFloat = true)
    (hv : validB pw t v = true) : ∃ x, v = .fp x := by
  cases t <;> cases v <;> simp_all [validB, Ty.isFloat, Ty.isInt, Ty.signed, Ty.unsigned]

theorem validB_fp_intro (pw : ℕ) (t : Ty) (x : Fp) (ht : t.isFloat = true) :
    validB pw t (.fp x) = true := by
  cases t <;> simp_all [validB, Ty.isFloat]

theorem conv_total_fromInt (pw : ℕ) (s d : Ty) (v : Val)
    (h0 : convert pw s d v = fromIntFn v)
    (hs : s.isInt = true) (hd : d.isInt = true)
    (hlo : Ty.lo pw d ≤ Ty.lo pw s) (hhi : Ty.hi pw s ≤ Ty.hi pw d)
    (hv : validB pw s v = true) :
    ∃ r, convert pw s d v = some r ∧ validB pw d r = true := by
  obtain ⟨n, rfl, hn1, hn2⟩ := validB_int_elim pw s v hs hv
  exact ⟨.int n, h0, validB_int_intro pw d n hd (hlo.trans hn1) (hn2.trans hhi)⟩

theorem conv_total_fromBool (pw : ℕ) (s d : Ty) (v : Val)
    (h0 : convert pw s d v = fromIntFn v)
    (hs : s = .bool) (hd : d.isInt = true)
    (hlo : Ty.lo pw d ≤ 0) (hhi : 1 ≤ Ty.hi pw d)
    (hv : validB pw s v = true) :
    ∃ r, convert pw s d v = some r ∧ validB pw d r = true := by
  subst hs
  obtain ⟨b, rfl⟩ := validB_bool_elim pw v hv
  have hA : Ty.lo pw d ≤ (if b then (1 : ℤ) else 0) := by cases b <;> simp <;> omega
  have hB : (if b then (1 : ℤ) else 0) ≤ Ty.hi pw d := by cases b <;> simp <;> omega
  exact ⟨.int (if b then 1 else 0), h0, validB_int_intro pw d _ hd hA hB⟩

theorem conv_total_clampFn (pw : ℕ) (s d : Ty) (v : Val)
    (h0 : convert pw s d v = clampFn (Ty.lo pw d) (Ty.hi pw d) v)
    (hs : s.isInt = true) (hd : d.isInt = true) (hb : Ty.lo pw d ≤ Ty.hi pw d)
    (hv : validB pw s v = true) :
    ∃ r, convert pw s d v = some r ∧ validB pw d r = true := by
  obtain ⟨n, rfl, hn1, hn2⟩ := validB_int_elim pw s v hs hv
  rw [h0, clampFn_spec _ _ n hb]
  refine ⟨_, rfl, validB_int_intro pw d _ hd ?_ ?_⟩ <;> (split_ifs <;> omega)

theorem conv_total_clampSigned (pw : ℕ) (s d : Ty) (v : Val)
    (h0 : convert pw s d v = clampSignedFn (Ty.lo pw d) (Ty.hi pw d) v)
    (hs : s.isInt = true) (hd : d.isInt = true)
    (hlo : Ty.lo pw d = 0) (hhi : 0 ≤ Ty.hi pw d) (hup : Ty.hi pw s ≤ Ty.hi pw d)
    (hv : validB pw s v = true) :
    ∃ r, convert pw s d v = some r ∧ validB pw d r = true := by
  obtain ⟨n, rfl, hn1, hn2⟩ := validB_int_elim pw s v hs hv
  rw [h0, hlo, clampSignedFn_spec _ n hhi (hn2.trans hup)]
  refine ⟨_, rfl, validB_int_intro pw d _ hd ?_ ?_⟩ <;> (split_ifs <;> omega)

theorem conv_total_clampUnsigned (pw : ℕ) (s d : Ty) (v : Val)
    (h0 : convert pw s d v
      = clampUnsignedFn (Ty.lo pw s) (Ty.hi pw s) (Ty.lo pw d) (Ty.hi pw d) v)
    (hs : s.isInt = true) (hd : d.isInt = true)
    (h1 : Ty.lo pw s ≤ Ty.hi pw d) (h2 : Ty.hi pw d ≤ Ty.hi pw s)
    (h3 : Ty.lo pw d ≤ 0) (h4 : 0 ≤ Ty.hi pw d) (hslo : Ty.lo pw s = 0)
    (hv : validB pw s v = true) :
    ∃ r, convert pw s d v = some r ∧ validB pw d r = true := by
  obtain ⟨n, rfl, hn1, hn2⟩ := validB_int_elim pw s v hs hv
  rw [h0, clampUnsignedFn_spec _ _ _ _ n h1 h2 h3 h4 (by omega)]
  refine ⟨_, rfl, validB_int_intro pw d _ hd ?_ ?_⟩ <;> (split_ifs <;> omega)

theorem conv_total_gtZero (pw : ℕ) (s d : Ty) (v : Val)
    (h0 : convert pw s d v = gtZeroFn v)
    (hs : s.isInt = true) (hd : d = .bool)
    (hv : validB pw s v = true) :
    ∃ r, convert pw s d v = some r ∧ validB pw d r = true := by
  subst hd
  obtain ⟨n, rfl, _, _⟩ := validB_int_elim pw s v hs hv
  exact ⟨.b (decide (0 < n)), h0, rfl⟩

theorem conv_total_gtZeroFloat (pw : ℕ) (s d : Ty) (v : Val)
    (h0 : convert pw s d v = gtZeroFloatFn v)
    (hs : s.isFloat = true) (hd : d = .bool)
    (hv : validB pw s v = true) :
    ∃ r, convert pw s d v = some r ∧ validB pw d r = true := by
  subst hd
  obtain ⟨x, rfl⟩ := validB_fp_elim pw s v hs hv
  exact ⟨.b (fpGtZero x), h0, rfl⟩

theorem conv_total_fromIntFloat (pw : ℕ) (s d : Ty) (v : Val)
    (h0 : convert pw s d v = fromIntFloatFn v)
    (hs : s.isInt = true) (hd : d.isFloat = true)
    (hv : validB pw s v = true) :
    ∃ r, convert pw s d v = some r ∧ validB pw d r = true := by
  obtain ⟨n, rfl, _, _⟩ := validB_int_elim pw s v hs hv
  exact ⟨.fp (.finite (n : ℚ)), h0, validB_fp_intro pw d _ hd⟩

theorem conv_total_fromF32F64 (pw : ℕ) (s d : Ty) (v : Val)
    (h0 : convert pw s d v = fromF32F64Fn v)
    (hs : s.isFloat = true) (hd : d.isFloat = true)
    (hv : validB pw s v = true) :
    ∃ r, convert pw s d v = some r ∧ validB pw d r = true := by
  obtain ⟨x, rfl⟩ := validB_fp_elim pw s v hs hv
  exact ⟨.fp x, h0, validB_fp_intro pw d _ hd⟩

theorem conv_total_boolFloat (pw : ℕ) (s d : Ty) (v : Val)
    (h0 : convert pw s d v = boolFloatFn v)
    (hs : s = .bool) (hd : d.isFloat = true)
    (hv : validB pw s v = true) :
    ∃ r, convert pw s d v = some r ∧ validB pw d r = true := by
  subst hs
  obtain ⟨b, rfl⟩ := validB_bool_elim pw v hv
  exact ⟨.fp (.finite (if b then 1 else 0)), h0, validB_fp_intro pw d _ hd⟩

theorem conv_total_castFpInt (pw : ℕ) (s d : Ty) (v : Val)
    (h0 : convert pw s d v = castFpIntFn (Ty.lo pw d) (Ty.hi pw d) v)
    (hs : s.isFloat = true) (hd : d.isInt = true)
    (hl : Ty.lo pw d ≤ 0) (hh : 0 ≤ Ty.hi pw d)
    (hv : validB pw s v = true) :
    ∃ r, convert pw s d v = some r ∧ validB pw d r = true := by
  obtain ⟨x, rfl⟩ := validB_fp_elim pw s v hs hv
  cases x with
  | nan => exact ⟨.int 0, h0, validB_int_intro pw d 0 hd hl hh⟩
  | inf neg =>
    refine ⟨.int (if neg then Ty.lo pw d else Ty.hi pw d), h0,
      validB_int_intro pw d _ hd ?_ ?_⟩ <;> (split_ifs <;> omega)
  | finite q =>
    refine ⟨.int (max (Ty.lo pw d) (min (ratTrunc q) (Ty.hi pw d))), h0,
      validB_int_intro pw d _ hd (le_max_left _ _)
        (max_le (hl.trans hh) (min_le_right _ _))⟩

theorem conv_total_castIntFp (pw : ℕ) (s d : Ty) (v : Val) (pc me : ℕ)
    (h0 : convert pw s d v = castIntFpFn pc me v)
    (hs : s.isInt = true) (hd : d.isFloat = true)
    (hv : validB pw s v = true) :
    ∃ r, convert pw s d v = some r ∧ validB pw d r = true := by
  obtain ⟨n, rfl, _, _⟩ := validB_int_elim pw s v hs hv
  rw [h0]
  by_cases hn : 0 ≤ n
  · rcases hq : roundNatPos pc me n.toNat with _ | q
    · exact ⟨.fp (.inf false), by simp [castIntFpFn, hn, hq], validB_fp_intro pw d _ hd⟩
    · exact ⟨.fp (.finite q), by simp [castIntFpFn, hn, hq], validB_fp_intro pw d _ hd⟩
  · rcases hq : roundNatPos pc me (-n).toNat with _ | q
    · exact ⟨.fp (.inf true), by simp [castIntFpFn, hn, hq], validB_fp_intro pw d _ hd⟩
    · exact ⟨.fp (.finite (-q)), by simp [castIntFpFn, hn, hq], validB_fp_intro pw d _ hd⟩

theorem conv_total_viaEquiv (pw : ℕ) (s d : Ty) (v : Val)
    (h0 : convert pw s d v = some v)
    (heq : ∀ w, validB pw d w = validB pw s w)
    (hv : validB pw s v = true) :
    ∃ r, convert pw s d v = some r ∧ validB pw d r = true :=
  ⟨v, h0, (heq v).trans hv⟩

theorem conv_total_castF64F32 (pw : ℕ) (s d : Ty) (v : Val)
    (h0 : convert pw s d v = castF64F32Fn v)
    (hs : s.isFloat = true) (hd : d.isFloat = true)
    (hv : validB pw s v = true) :
    ∃ r, convert pw s d v = some r ∧ validB pw d r = true := by
  obtain ⟨x, rfl⟩ := validB_fp_elim pw s v hs hv
  exact ⟨.fp (castF64F32 x), h0, validB_fp_intro pw d _ hd⟩

/-- C7.  Totality (the whole conversion matrix, lib.rs lines 29-336): for
all 225 ordered pairs of the 15 types and every valid source value the
conversion returns a value; in particular no try_from(..).unwrap() error
branch is ever reached (a reached error branch would surface as `none`
here), and the result is a valid value of the destination type. -/
theorem thm_totality (pw : ℕ) (hpw : PW pw) (s d : Ty) (v : Val)
    (hv : validB pw s v = true) :
    ∃ r, convert pw s d v = some r ∧ validB pw d r = true := by
  rcases hpw with rfl | rfl | rfl <;> cases s <;> cases d <;>
    first
      | exact ⟨v, rfl, hv⟩
      | exact conv_total_viaEquiv _ _ _ _ (by rfl) (by intro w; cases w <;> rfl) hv
      | exact conv_total_fromInt _ _ _ _ (by rfl) (by decide) (by decide) (by decide)
          (by decide) hv
      | exact conv_total_fromBool _ _ _ _ (by rfl) (by rfl) (by decide) (by decide)
          (by decide) hv
      | exact conv_total_clampFn _ _ _ _ (by rfl) (by decide) (by decide) (by decide) hv
      | exact conv_total_clampSigned _ _ _ _ (by rfl) (by decide) (by decide) (by decide)
          (by decide) (by decide) hv
      | exact conv_total_clampUnsigned _ _ _ _ (by rfl) (by decide) (by decide) (by decide)
          (by decide) (by decide) (by decide) (by decide) hv
      | exact conv_total_gtZero _ _ _ _ (by rfl) (by decide) (by rfl) hv
      | exact conv_total_gtZeroFloat _ _ _ _ (by rfl) (by decide) (by rfl) hv
      | exact conv_total_fromIntFloat _ _ _ _ (by rfl) (by decide) (by decide) hv
      | exact conv_total_fromF32F64 _ _ _ _ (by rfl) (by decide) (by decide) hv
      | exact conv_total_boolFloat _ _ _ _ (by rfl) (by rfl) (by decide) hv
      | exact conv_total_castFpInt _ _ _ _ (by rfl) (by decide) (by decide) (by decide)
          (by decide) hv
      | exact conv_total_castIntFp _ _ _ _ 24 104 (by rfl) (by decide) (by decide) hv
      | exact conv_total_castIntFp _ _ _ _ 53 971 (by rfl) (by decide) (by decide) hv
      | exact conv_total_castF64F32 _ _ _ _ (by rfl) (by decide) (by decide) hv

theorem thm_totality_witness :
    PW 64 ∧ validB 64 .i64 (.int (-125431462564574573)) = true ∧
      (∃ r, convert 64 .i64 .i32 (.int (-125431462564574573)) = some r ∧
        validB 64 .i32 r = true) :=
  ⟨Or.inr (Or.inr rfl), by decide,
    thm_totality 64 (Or.inr (Or.inr rfl)) .i64 .i32 (.int (-125431462564574573)) (by decide)⟩

/-- C8.  Identity conversions (impl_self, lib.rs lines 29-42): for every
type the conversion from itself returns the value unchanged. -/
theorem thm_identity (pw : ℕ) (t : Ty) (v : Val) : convert pw t t v = some v := by
  cases t <;> rfl

/-- C9.  The blanket SaturatingInto implementation (lib.rs lines 328-336)
delegates to SaturatingFrom with no per-pair logic: saturating_into always
equals saturating_from. -/
theorem thm_into_delegates (pw : ℕ) (s d : Ty) (v : Val) :
    saturatingInto pw s d v = convert pw s d v := rfl

/-- C10.  Float to float conversions preserve NaN: the f64 to f32 `as` cast
(lib.rs line 187) and the f32 to f64 From embedding (lib.rs line 70) both
send NaN to NaN. -/
theorem thm_float_nan_preserved (pw : ℕ) :
    convert pw .f64 .f32 (.fp .nan) = some (.fp .nan) ∧
      convert pw .f32 .f64 (.fp .nan) = some (.fp .nan) :=
  ⟨rfl, rfl⟩

theorem natBitsAux_low (fuel : ℕ) : ∀ n : ℕ, n ≠ 0 → 2 ^ (natBitsAux fuel n - 1) ≤ n := by
  induction fuel with
  | zero => intro n hn; simp only [natBitsAux]; simpa using Nat.one_le_iff_ne_zero.mpr hn
  | succ fuel ih =>
    intro n hn
    simp only [natBitsAux, if_neg hn]
    by_cases h2 : n / 2 = 0
    · have : natBitsAux fuel 0 = 0 := by cases fuel <;> simp [natBitsAux]
      rw [h2, this]
      simpa using Nat.one_le_iff_ne_zero.mpr hn
    · have hih := ih (n / 2) h2
      set k := natBitsAux fuel (n / 2) with hk
      have hkpos : k ≠ 0 → 2 ^ (k + 1 - 1) ≤ n := by
        intro hk0
        have h2k : 2 ^ k = 2 * 2 ^ (k - 1) := by
          conv_lhs => rw [show k = (k - 1) + 1 by omega]
          rw [pow_succ]
          ring
        calc 2 ^ (k + 1 - 1) = 2 * 2 ^ (k - 1) := by rw [Nat.add_sub_cancel, h2k]
          _ ≤ 2 * (n / 2) := Nat.mul_le_mul_left 2 hih
          _ ≤ n := by omega
      rcases Nat.eq_zero_or_pos k with hk0 | hk0
      · rw [hk0]
        simpa using Nat.one_le_iff_ne_zero.mpr hn
      · exact hkpos (by omega)

theorem natBitsAux_high (fuel : ℕ) : ∀ n : ℕ, n < 2 ^ fuel → n < 2 ^ natBitsAux fuel n := by
  induction fuel with
  | zero => intro n hn; simpa [natBitsAux] using hn
  | succ fuel ih =>
    intro n hn
    by_cases h0 : n = 0
    · simp [natBitsAux, h0]
    · simp only [natBitsAux, if_neg h0]
      have hih := ih (n / 2) (by
        have := Nat.pow_succ 2 fuel
        omega)
      have : n < 2 * 2 ^ natBitsAux fuel (n / 2) := by omega
      calc n < 2 * 2 ^ natBitsAux fuel (n / 2) := this
        _ = 2 ^ (natBitsAux fuel (n / 2) + 1) := by rw [pow_succ]; ring

theorem natBits_low (n : ℕ) (hn : n ≠ 0) : 2 ^ (natBits n - 1) ≤ n := natBitsAux_low 4000 n hn

theorem natBits_high (n : ℕ) (hn : n < 2 ^ 4000) : n < 2 ^ natBits n := natBitsAux_high 4000 n hn

/-- natBits is exact on any range [2^(b-1), 2^b) inside the fuel bound. -/
theorem natBits_eq (n b : ℕ) (hb : b ≠ 0) (h1 : 2 ^ (b - 1) ≤ n) (h2 : n < 2 ^ b)
    (hfuel : b ≤ 4000) : natBits n = b := by
  have hn : n ≠ 0 := by
    have : (0:ℕ) < 2 ^ (b - 1) := Nat.pos_pow_of_pos _ (by norm_num)
    omega
  have hlow := natBits_low n hn
  have hhigh := natBits_high n (lt_of_lt_of_le h2 (Nat.pow_le_pow_right (by norm_num) hfuel))
  by_contra hne
  rcases Nat.lt_or_ge (natBits n) b with hlt | hge
  · have : 2 ^ natBits n ≤ 2 ^ (b - 1) := Nat.pow_le_pow_right (by norm_num) (by omega)
    omega
  · have hgt : b < natBits n := by omega
    have : 2 ^ b ≤ 2 ^ (natBits n - 1) := Nat.pow_le_pow_right (by norm_num) (by omega)
    omega


/-! Facts about round to nearest on naturals. -/

theorem rneNat_mem (n d : ℕ) : rneNat n d = n / d ∨ rneNat n d = n / d + 1 := by
  simp only [rneNat]
  split_ifs <;> simp

theorem rneNat_bounds (n d : ℕ) (hd : 0 < d) :
    2 * (rneNat n d * d) ≤ 2 * n + d ∧ 2 * n ≤ 2 * (rneNat n d * d) + d := by
  obtain ⟨a, r, rfl, hr⟩ : ∃ a r, n = d * a + r ∧ r < d :=
    ⟨n / d, n % d, (Nat.div_add_mod n d).symm, Nat.mod_lt _ hd⟩
  have hdiv : (d * a + r) / d = a := by
    rw [Nat.mul_add_div hd, Nat.div_eq_of_lt hr]
    omega
  have hmod2 : (d * a + r) % d = r := by
    rw [Nat.mul_add_mod]
    exact Nat.mod_eq_of_lt hr
  simp only [rneNat, hdiv, hmod2]
  split_ifs with h1 h2 h3 <;> constructor <;> nlinarith [hr]

theorem roundNatPos_small (prec maxE n : ℕ) (h : n < 2 ^ prec) :
    roundNatPos prec maxE n = some (n : ℚ) := by
  simp [roundNatPos, h]

theorem roundNatPos_noflow (prec maxE n : ℕ) (hp : 0 < prec)
    (h2p : 2 ^ prec ≤ n) (hfuel : n < 2 ^ 4000)
    (hcap : 2 * n + 2 ^ (natBits n - prec) ≤ 2 * ((2 ^ prec - 1) * 2 ^ maxE)) :
    ∃ v : ℕ, roundNatPos prec maxE n = some (v : ℚ) ∧
      2 * v ≤ 2 * n + 2 ^ (natBits n - prec) ∧ 2 * n ≤ 2 * v + 2 ^ (natBits n - prec) := by
  have hbgt : prec < natBits n := by
    have := natBits_high n hfuel
    have h2 : (2:ℕ) ^ prec < 2 ^ natBits n := lt_of_le_of_lt h2p this
    exact (Nat.pow_lt_pow_iff_right (by norm_num)).mp h2
  set b := natBits n with hb
  set e := b - prec with he
  have hdpos : 0 < (2:ℕ) ^ e := Nat.pos_pow_of_pos _ (by norm_num)
  have hdiv : n / 2 ^ e < 2 ^ prec := by
    rw [Nat.div_lt_iff_lt_mul hdpos]
    calc n < 2 ^ b := natBits_high n hfuel
      _ = 2 ^ prec * 2 ^ e := by rw [← pow_add]; congr 1; omega
  have hbnd := rneNat_bounds n (2 ^ e) hdpos
  have hval : rneNat n (2 ^ e) * 2 ^ e ≤ (2 ^ prec - 1) * 2 ^ maxE := by omega
  refine ⟨rneNat n (2 ^ e) * 2 ^ e, ?_, ?_, ?_⟩
  · simp only [roundNatPos, if_neg (not_lt.mpr h2p), ← hb, ← he, if_neg (not_lt.mpr hval)]
  · exact (rneNat_bounds n (2 ^ e) hdpos).1
  · exact (rneNat_bounds n (2 ^ e) hdpos).2

theorem roundNatPos_top (n : ℕ) (h1 : 2 ^ 127 ≤ n) (h2 : n < 2 ^ 128) :
    (roundNatPos 24 104 n = none ↔ 2 ^ 128 - 2 ^ 103 ≤ n) ∧
    (n < 2 ^ 128 - 2 ^ 103 →
      ∃ v : ℕ, roundNatPos 24 104 n = some (v : ℚ) ∧
        2 * v ≤ 2 * n + 2 ^ 104 ∧ 2 * n ≤ 2 * v + 2 ^ 104) := by
  have hb : natBits n = 128 :=
    natBits_eq n 128 (by norm_num) (by norm_num at h1 ⊢; omega) (by omega) (by norm_num)
  have hns : ¬ n < 2 ^ 24 := by omega
  have hmod : 2 ^ 104 * (n / 2 ^ 104) + n % 2 ^ 104 = n := Nat.div_add_mod n (2 ^ 104)
  have hr : n % 2 ^ 104 < 2 ^ 104 := Nat.mod_lt _ (by norm_num)
  have hred : roundNatPos 24 104 n
      = if (2 ^ 24 - 1) * 2 ^ 104 < rneNat n (2 ^ 104) * 2 ^ 104 then none
        else some ((rneNat n (2 ^ 104) * 2 ^ 104 : ℕ) : ℚ) := by
    simp only [roundNatPos, if_neg hns, hb]
  rw [hred]
  simp only [rneNat]
  constructor
  · split_ifs <;>
      first
        | exact iff_of_true rfl (by omega)
        | exact iff_of_false (by simp) (by omega)
  · intro hlt
    split_ifs <;>
      first
        | (exfalso; omega)
        | exact ⟨_, rfl, by omega, by omega⟩


/-! Conversion of the rounding facts into facts about castIntFpFn. -/

theorem roundNat_acc_aux (P maxE B k : ℕ) (hp : 0 < P) (hB : B + 1 ≤ 4000)
    (hcap : 2 ^ (B + 1) + 2 ^ (B + 1 - P) ≤ 2 * ((2 ^ P - 1) * 2 ^ maxE))
    (hk : k ≤ 2 ^ B) :
    ∃ v : ℕ, roundNatPos P maxE k = some (v : ℚ) ∧ |(v : ℤ) - (k : ℤ)| * 2 ^ P ≤ (k : ℤ) := by
  by_cases hks : k < 2 ^ P
  · refine ⟨k, roundNatPos_small P maxE k hks, ?_⟩
    have hz : |(k : ℤ) - (k : ℤ)| * 2 ^ P = 0 := by simp
    rw [hz]
    exact_mod_cast Nat.zero_le k
  · push_neg at hks
    have hBlt : (2:ℕ) ^ B < 2 ^ (B + 1) := Nat.pow_lt_pow_right (by norm_num) (by omega)
    have hBle : (2:ℕ) ^ (B + 1) ≤ 2 ^ 4000 := Nat.pow_le_pow_right (by norm_num) hB
    have hfuel : k < 2 ^ 4000 := by omega
    have hkpos : k ≠ 0 := by
      have : (0:ℕ) < 2 ^ P := Nat.pos_pow_of_pos _ (by norm_num)
      omega
    have hbits_hi : natBits k ≤ B + 1 := by
      by_contra hcon
      have h1 : 2 ^ (B + 1) ≤ 2 ^ (natBits k - 1) :=
        Nat.pow_le_pow_right (by norm_num) (by omega)
      have h2 := natBits_low k hkpos
      omega
    have hbits_lo : P < natBits k := by
      have h1 := natBits_high k hfuel
      have h2 : (2:ℕ) ^ P < 2 ^ natBits k := lt_of_le_of_lt hks h1
      exact (Nat.pow_lt_pow_iff_right (by norm_num)).mp h2
    have hcap' : 2 * k + 2 ^ (natBits k - P) ≤ 2 * ((2 ^ P - 1) * 2 ^ maxE) := by
      have h1 : (2:ℕ) ^ (natBits k - P) ≤ 2 ^ (B + 1 - P) :=
        Nat.pow_le_pow_right (by norm_num) (by omega)
      omega
    obtain ⟨v, hv, a1, a2⟩ := roundNatPos_noflow P maxE k hp hks hfuel hcap'
    refine ⟨v, hv, ?_⟩
    have hsplit : (2:ℕ) ^ (natBits k - P) = 2 * 2 ^ (natBits k - P - 1) := by
      rw [← pow_succ']
      congr 1
      omega
    have a1z : 2 * (v : ℤ) ≤ 2 * (k : ℤ) + 2 ^ (natBits k - P) := by exact_mod_cast a1
    have a2z : 2 * (k : ℤ) ≤ 2 * (v : ℤ) + 2 ^ (natBits k - P) := by exact_mod_cast a2
    have hsplitz : (2:ℤ) ^ (natBits k - P) = 2 * 2 ^ (natBits k - P - 1) := by
      exact_mod_cast hsplit
    have habs : |(v : ℤ) - (k : ℤ)| ≤ 2 ^ (natBits k - P - 1) := by
      rcases abs_cases ((v : ℤ) - (k : ℤ)) with ⟨he, _⟩ | ⟨he, _⟩ <;> rw [he] <;> omega
    have hlow := natBits_low k hkpos
    calc |(v : ℤ) - (k : ℤ)| * 2 ^ P ≤ 2 ^ (natBits k - P - 1) * 2 ^ P :=
          mul_le_mul_of_nonneg_right habs (by positivity)
      _ = 2 ^ (natBits k - 1) := by rw [← pow_add]; congr 1; omega
      _ ≤ (k : ℤ) := by exact_mod_cast hlow

theorem castIntFp_abs_acc (P maxE B : ℕ) (hp : 0 < P) (hB : B + 1 ≤ 4000)
    (hcap : 2 ^ (B + 1) + 2 ^ (B + 1 - P) ≤ 2 * ((2 ^ P - 1) * 2 ^ maxE))
    (n : ℤ) (hn : |n| ≤ 2 ^ B) :
    ∃ q : ℚ, castIntFpFn P maxE (.int n) = some (.fp (.finite q)) ∧
      |q - (n : ℚ)| * 2 ^ P ≤ |(n : ℚ)| := by
  have hBc : ((2 ^ B : ℕ) : ℤ) = 2 ^ B := by push_cast; ring
  by_cases h0 : 0 ≤ n
  · have hk : n.toNat ≤ 2 ^ B := by
      rcases abs_cases n with ⟨ha, _⟩ | ⟨ha, _⟩ <;> omega
    obtain ⟨v, hv, hacc⟩ := roundNat_acc_aux P maxE B n.toNat hp hB hcap hk
    have hnn : ((n.toNat : ℤ)) = n := Int.toNat_of_nonneg h0
    refine ⟨(v : ℚ), by simp [castIntFpFn, h0, hv], ?_⟩
    have hq : |(v : ℚ) - (n : ℚ)| * 2 ^ P ≤ (n : ℚ) := by
      exact_mod_cast (show |(v : ℤ) - n| * 2 ^ P ≤ n from hnn ▸ hacc)
    rw [abs_of_nonneg (show (0:ℚ) ≤ (n : ℚ) by exact_mod_cast h0)]
    exact hq
  · have hneg : 0 ≤ -n := by omega
    have hk : (-n).toNat ≤ 2 ^ B := by
      rcases abs_cases n with ⟨ha, _⟩ | ⟨ha, _⟩ <;> omega
    obtain ⟨v, hv, hacc⟩ := roundNat_acc_aux P maxE B (-n).toNat hp hB hcap hk
    have hnn : (((-n).toNat : ℤ)) = -n := Int.toNat_of_nonneg hneg
    refine ⟨-(v : ℚ), by simp [castIntFpFn, h0, hv], ?_⟩
    have hacc' : |(v : ℤ) - (-n)| * 2 ^ P ≤ -n := hnn ▸ hacc
    have hq : |(v : ℚ) - (-(n : ℚ))| * 2 ^ P ≤ -(n : ℚ) := by
      exact_mod_cast hacc'
    have hs : -(v : ℚ) - (n : ℚ) = -((v : ℚ) - (-(n : ℚ))) := by ring
    rw [abs_of_nonpos (show (n : ℚ) ≤ 0 by exact_mod_cast (le_of_not_le h0))]
    rw [hs, abs_neg]
    exact hq

theorem castIntFp_u128_f32 (n : ℤ) (h0 : 0 ≤ n) (h2 : n < 2 ^ 128) :
    (castIntFpFn 24 104 (.int n) = some (.fp (.inf false)) ↔ 2 ^ 128 - 2 ^ 103 ≤ n) ∧
    (n < 2 ^ 128 - 2 ^ 103 →
      ∃ q : ℚ, castIntFpFn 24 104 (.int n) = some (.fp (.finite q)) ∧
        |q - (n : ℚ)| * 2 ^ 24 ≤ (n : ℚ)) := by
  by_cases hbig : 2 ^ 127 ≤ n.toNat
  · have h2n : n.toNat < 2 ^ 128 := by omega
    obtain ⟨hiff, hsome⟩ := roundNatPos_top n.toNat hbig h2n
    constructor
    · rcases hro : roundNatPos 24 104 n.toNat with _ | q
      · have hT := hiff.mp hro
        exact iff_of_true (by simp [castIntFpFn, h0, hro]) (by omega)
      · refine iff_of_false ?_ ?_
        · simp [castIntFpFn, h0, hro]
        · intro hT
          have : roundNatPos 24 104 n.toNat = none := hiff.mpr (by omega)
          simp [this] at hro
    · intro hlt
      obtain ⟨v, hv, a1, a2⟩ := hsome (by omega)
      refine ⟨(v : ℚ), by simp [castIntFpFn, h0, hv], ?_⟩
      have hnn : ((n.toNat : ℤ)) = n := Int.toNat_of_nonneg h0
      have habs : |(v : ℤ) - n| * 2 ^ 24 ≤ n := by
        rcases abs_cases ((v : ℤ) - n) with ⟨he, _⟩ | ⟨he, _⟩ <;> rw [he] <;> omega
      exact_mod_cast habs
  · push_neg at hbig
    have hnot : ¬ 2 ^ 128 - 2 ^ 103 ≤ n := by omega
    constructor
    · refine iff_of_false ?_ hnot
      by_cases hsmall : n.toNat < 2 ^ 24
      · simp [castIntFpFn, h0, roundNatPos_small 24 104 n.toNat hsmall]
      · push_neg at hsmall
        have hbits_hi : natBits n.toNat ≤ 127 := by
          by_contra hcon
          have h1 : 2 ^ 127 ≤ 2 ^ (natBits n.toNat - 1) :=
            Nat.pow_le_pow_right (by norm_num) (by omega)
          have h2b := natBits_low n.toNat (by omega)
          omega
        have hcap' : 2 * n.toNat + 2 ^ (natBits n.toNat - 24)
            ≤ 2 * ((2 ^ 24 - 1) * 2 ^ 104) := by
          have hd : (2:ℕ) ^ (natBits n.toNat - 24) ≤ 2 ^ 103 :=
            Nat.pow_le_pow_right (by norm_num) (by omega)
          omega
        obtain ⟨v, hv, _, _⟩ := roundNatPos_noflow 24 104 n.toNat (by norm_num) hsmall
          (by omega) hcap'
        simp [castIntFpFn, h0, hv]
    · intro hlt
      have hn : |n| ≤ 2 ^ 127 := by
        rcases abs_cases n with ⟨ha, _⟩ | ⟨ha, _⟩ <;> omega
      obtain ⟨q, hq, hacc⟩ := castIntFp_abs_acc 24 104 127 (by norm_num) (by norm_num)
        (by norm_num) n hn
      refine ⟨q, hq, ?_⟩
      rw [abs_of_nonneg (show (0:ℚ) ≤ (n : ℚ) by exact_mod_cast h0)] at hacc
      exact hacc


/-! The rational rounding used by the f64 -> f32 cast. -/

theorem natBitsAux_pos (fuel n : ℕ) (hn : n ≠ 0) : 0 < natBitsAux (fuel + 1) n := by
  simp only [natBitsAux, if_neg hn]
  omega

theorem natBits_pos (n : ℕ) (hn : n ≠ 0) : 0 < natBits n := natBitsAux_pos 3999 n hn

theorem twoPowLe_iff (q : ℚ) (k : ℤ) (h0 : 0 < q) :
    (2:ℚ) ^ k ≤ q ↔ qGeTwoPow q k = true := by
  have hdenpos : (0:ℚ) < (q.den : ℚ) := by exact_mod_cast q.den_pos
  have hq : ((q.num : ℚ)) / (q.den : ℚ) = q := Rat.num_div_den q
  have hstep : (2:ℚ) ^ k ≤ q ↔ (2:ℚ) ^ k * (q.den : ℚ) ≤ (q.num : ℚ) := by
    rw [← hq, le_div_iff₀ hdenpos]
    rw [hq]
  simp only [qGeTwoPow]
  split_ifs with hk
  · have hkk : ((k.toNat : ℤ)) = k := Int.toNat_of_nonneg hk
    have hpow : (2:ℚ) ^ k = ((2 ^ k.toNat : ℤ) : ℚ) := by
      conv_lhs => rw [← hkk]
      rw [zpow_natCast]
      push_cast
      ring
    rw [hstep, hpow, decide_eq_true_eq]
    constructor <;> intro h
    · have h2 : (2 ^ k.toNat : ℤ) * (q.den : ℤ) ≤ q.num := by exact_mod_cast h
      linarith [h2, mul_comm ((2:ℤ) ^ k.toNat) (q.den : ℤ)]
    · have h2 : (2 ^ k.toNat : ℤ) * (q.den : ℤ) ≤ q.num := by
        linarith [h, mul_comm ((q.den : ℤ)) ((2:ℤ) ^ k.toNat)]
      exact_mod_cast h2
  · push_neg at hk
    have hkk : (((-k).toNat : ℤ)) = -k := Int.toNat_of_nonneg (by omega)
    have hposc : (0:ℚ) < ((2 ^ (-k).toNat : ℤ) : ℚ) := by positivity
    have hpow : (2:ℚ) ^ k * (q.den : ℚ) = (q.den : ℚ) / ((2 ^ (-k).toNat : ℤ) : ℚ) := by
      have h1 : (2:ℚ) ^ k = ((2:ℚ) ^ (-k).toNat)⁻¹ := by
        conv_lhs => rw [show k = -(-k) from (neg_neg k).symm, ← hkk]
        rw [zpow_neg, zpow_natCast]
      rw [h1]
      push_cast
      ring
    rw [hstep, hpow, div_le_iff₀ hposc, decide_eq_true_eq]
    constructor <;> intro h <;> exact_mod_cast h

theorem floorLog2Q_le (q : ℚ) (h0 : 0 < q) (hden : q.den < 2 ^ 4000) :
    (2:ℚ) ^ floorLog2Q q ≤ q := by
  have hnum : 0 < q.num := Rat.num_pos.mpr h0
  have ha : q.num.toNat ≠ 0 := by omega
  simp only [floorLog2Q]
  split_ifs with htest
  · exact (twoPowLe_iff q _ h0).mpr htest
  · have hbn1 : 0 < natBits q.num.toNat := natBits_pos _ ha
    have hnl : (2:ℕ) ^ (natBits q.num.toNat - 1) ≤ q.num.toNat := natBits_low _ ha
    have hdh : q.den < 2 ^ natBits q.den := natBits_high _ hden
    have hq : ((q.num : ℚ)) / (q.den : ℚ) = q := Rat.num_div_den q
    have hdenpos : (0:ℚ) < (q.den : ℚ) := by exact_mod_cast q.den_pos
    have e1 : ((natBits q.num.toNat : ℤ) - (natBits q.den : ℤ)) - 1
        = ((natBits q.num.toNat - 1 : ℕ) : ℤ) - ((natBits q.den : ℕ) : ℤ) := by
      push_cast
      omega
    calc (2:ℚ) ^ ((natBits q.num.toNat : ℤ) - (natBits q.den : ℤ) - 1)
        = (2:ℚ) ^ (((natBits q.num.toNat - 1 : ℕ) : ℤ)) / (2:ℚ) ^ (((natBits q.den : ℕ)) : ℤ) := by
          rw [e1, zpow_sub₀ (by norm_num)]
      _ = ((2 ^ (natBits q.num.toNat - 1) : ℕ) : ℚ) / ((2 ^ natBits q.den : ℕ) : ℚ) := by
          rw [zpow_natCast, zpow_natCast]
          push_cast
          ring
      _ ≤ (q.num : ℚ) / (q.den : ℚ) := by
          apply div_le_div₀ (le_of_lt (by exact_mod_cast hnum)) ?_ hdenpos ?_
          · have h1 : ((2 ^ (natBits q.num.toNat - 1) : ℕ) : ℚ) ≤ ((q.num.toNat : ℕ) : ℚ) := by
              exact_mod_cast hnl
            rwa [show ((q.num.toNat : ℕ) : ℚ) = (q.num : ℚ) by
              exact_mod_cast congrArg (fun z : ℤ => (z : ℚ)) (Int.toNat_of_nonneg (le_of_lt hnum))] at h1
          · exact_mod_cast le_of_lt hdh
      _ = q := hq

theorem rneQ_half_lower (x : ℚ) : x - 1/2 ≤ (rneQ x : ℚ) := by
  have hf1 : (⌊x⌋ : ℚ) ≤ x := Int.floor_le x
  have hf2 : x < ⌊x⌋ + 1 := Int.lt_floor_add_one x
  simp only [rneQ]
  split_ifs with h1 h2 h3 <;> push_cast <;> linarith

theorem rneQ_boundary (x : ℚ) (h1 : 2 ^ 24 - 1/2 ≤ x) (h2 : x < 2 ^ 24) :
    rneQ x = 2 ^ 24 := by
  have hfl : ⌊x⌋ = 2 ^ 24 - 1 := by
    apply Int.floor_eq_iff.mpr
    constructor <;> push_cast <;> linarith
  simp only [rneQ, hfl]
  split_ifs with hc1 hc2 hc3
  · exfalso
    push_cast at hc1
    linarith
  · omega
  · exfalso
    norm_num at hc3
  · omega

theorem roundRatPosF32_overflow (q : ℚ) (hq : (2:ℚ) ^ 128 - 2 ^ 103 ≤ q)
    (hden : q.den ≤ 2 ^ 1074) :
    roundRatPosF32 q = none := by
  have h0 : 0 < q := lt_of_lt_of_le (by norm_num) hq
  have hdlt : q.den < 2 ^ 4000 :=
    lt_of_le_of_lt hden (Nat.pow_lt_pow_right (by norm_num) (by norm_num))
  have hL := floorLog2Q_le q h0 hdlt
  set L := floorLog2Q q with hLdef
  set e : ℤ := max (-149) (L - 23) with hedef
  have hepos : (0:ℚ) < 2 ^ e := zpow_pos (by norm_num) e
  have hsplit : (2:ℚ) ^ e = 2 ^ (e - 1) * 2 := by
    conv_lhs => rw [show e = (e - 1) + 1 by ring]
    rw [zpow_add_one₀ (by norm_num)]
  have hm := rneQ_half_lower (q / 2 ^ e)
  have hvlb : (q / 2 ^ e - 1/2) * 2 ^ e ≤ (rneQ (q / 2 ^ e) : ℚ) * 2 ^ e :=
    mul_le_mul_of_nonneg_right hm (le_of_lt hepos)
  have hexp : (q / 2 ^ e - 1/2) * 2 ^ e = q - 2 ^ (e - 1) := by
    have hc : q / 2 ^ e * 2 ^ e = q := div_mul_cancel₀ q (ne_of_gt hepos)
    calc (q / 2 ^ e - 1/2) * 2 ^ e = q / 2 ^ e * 2 ^ e - 2 ^ e / 2 := by ring
      _ = q - 2 ^ (e - 1) := by rw [hc, hsplit]; ring
  have hgen : q - 2 ^ (e - 1) ≤ (rneQ (q / 2 ^ e) : ℚ) * 2 ^ e := hexp ▸ hvlb
  have hgoal : f32MaxQ < (rneQ (q / 2 ^ e) : ℚ) * 2 ^ e → roundRatPosF32 q = none := by
    intro hgt
    simp only [roundRatPosF32, ← hLdef, ← hedef, if_pos hgt]
  apply hgoal
  show (2:ℚ) ^ 128 - 2 ^ 104 < _
  rcases le_or_lt e 104 with he | he
  · rcases lt_or_eq_of_le he with helt | he104
    · -- e is at most 103, so the value is at least q - 2^102
      have h1 : (2:ℚ) ^ (e - 1) ≤ 2 ^ (102 : ℤ) := zpow_le_zpow_right₀ (by norm_num) (by omega)
      have h2 : (2:ℚ) ^ (102 : ℤ) = 2 ^ (102 : ℕ) := by
        rw [show ((102:ℤ)) = ((102:ℕ):ℤ) from rfl, zpow_natCast]
      have h3 : (2:ℚ) ^ (103:ℕ) + 2 ^ (102:ℕ) < 2 ^ (104:ℕ) := by norm_num
      linarith [hgen, h1, h2, h3, hq]
    · -- e = 104
      have he2 : (2:ℚ) ^ e = 2 ^ (104:ℕ) := by
        rw [he104, show ((104:ℤ)) = ((104:ℕ):ℤ) from rfl, zpow_natCast]
      rcases eq_or_lt_of_le hq with hqT | hqT
      · -- q is exactly the overflow threshold: the tie rounds up, to infinity
        have hx : q / 2 ^ e = 2 ^ 24 - 1/2 := by
          rw [he2, ← hqT]
          norm_num
        have hmz : rneQ (q / 2 ^ e) = 2 ^ 24 := by
          rw [hx]
          exact rneQ_boundary _ (le_refl _) (by norm_num)
        rw [hmz, he2]
        push_cast
        norm_num
      · -- q strictly above the threshold
        have h1 : (2:ℚ) ^ (e - 1) = 2 ^ (103:ℕ) := by
          rw [he104, show ((104:ℤ) - 1) = ((103:ℕ):ℤ) from rfl, zpow_natCast]
        have h3 : (2:ℚ) ^ (104:ℕ) - 2 ^ (103:ℕ) > 0 := by norm_num
        linarith [hgen, h1, h3, hqT]
  · -- e is at least 105, so the value is at least 2^L which is at least 2^128
    have heL : e = L - 23 := by
      rcases max_cases (-149 : ℤ) (L - 23) with ⟨h1, _⟩ | ⟨h1, _⟩ <;> omega
    have hcast : ((2:ℚ) ^ (23:ℤ)) = ((2 ^ 23 : ℤ) : ℚ) := by
      rw [show ((23:ℤ)) = ((23:ℕ):ℤ) from rfl, zpow_natCast]
      push_cast
      ring
    have hx : (2:ℚ) ^ (23 : ℤ) ≤ q / 2 ^ e := by
      rw [le_div_iff₀ hepos, ← zpow_add₀ (show (2:ℚ) ≠ 0 by norm_num)]
      calc (2:ℚ) ^ (23 + e) = 2 ^ L := by rw [heL]; congr 1; ring
        _ ≤ q := hL
    have hmge : (2:ℚ) ^ (23 : ℤ) - 1/2 ≤ (rneQ (q / 2 ^ e) : ℚ) := le_trans (by linarith) hm
    have hmz : (2 ^ 23 : ℤ) ≤ rneQ (q / 2 ^ e) := by
      have h1 : ((2 ^ 23 - 1 : ℤ) : ℚ) < (rneQ (q / 2 ^ e) : ℚ) := by
        rw [hcast] at hmge
        push_cast at hmge ⊢
        linarith
      have h2 : (2 ^ 23 - 1 : ℤ) < rneQ (q / 2 ^ e) := by exact_mod_cast h1
      omega
    have hval : (2:ℚ) ^ (23:ℤ) * 2 ^ e ≤ (rneQ (q / 2 ^ e) : ℚ) * 2 ^ e := by
      apply mul_le_mul_of_nonneg_right ?_ (le_of_lt hepos)
      rw [hcast]
      exact_mod_cast hmz
    have hfin : (2:ℚ) ^ (128:ℤ) ≤ (2:ℚ) ^ (23:ℤ) * 2 ^ e := by
      rw [← zpow_add₀ (show (2:ℚ) ≠ 0 by norm_num)]
      apply zpow_le_zpow_right₀ (by norm_num)
      omega
    have h128 : (2:ℚ) ^ (128:ℤ) = 2 ^ (128:ℕ) := by
      rw [show ((128:ℤ)) = ((128:ℕ):ℤ) from rfl, zpow_natCast]
    have hp104 : (0:ℚ) < 2 ^ (104:ℕ) := by positivity
    linarith [hval, hfin, h128, hp104]



theorem castF64F32_overflow (x : ℚ) (hx : (2:ℚ) ^ 128 - 2 ^ 103 ≤ |x|)
    (hden : x.den ≤ 2 ^ 1074) :
    castF64F32 (.finite x) = .inf (decide (x < 0)) := by
  have hx0 : x ≠ 0 := by
    intro h
    subst h
    norm_num [abs_zero] at hx
  by_cases hpos : 0 < x
  · have habs : |x| = x := abs_of_pos hpos
    have hd : decide (x < 0) = false := decide_eq_false (asymm hpos)
    have hov : roundRatPosF32 x = none := roundRatPosF32_overflow x (habs ▸ hx) hden
    simp only [castF64F32, if_neg hx0, if_pos hpos, hov, hd]
  · have hneg : x < 0 := lt_of_le_of_ne (le_of_not_lt hpos) hx0
    have habs : |x| = -x := abs_of_neg hneg
    have hd : decide (x < 0) = true := decide_eq_true hneg
    have hxn : (2:ℚ) ^ 128 - 2 ^ 103 ≤ -x := habs ▸ hx
    have hov : roundRatPosF32 (-x) = none :=
      roundRatPosF32_overflow (-x) hxn (by rw [Rat.neg_den]; exact hden)
    simp only [castF64F32, if_neg hx0, if_neg hpos, hov, hd]

theorem conv_c5_exact (pw : ℕ) (s d : Ty) (n : ℤ) (P : ℕ)
    (h0 : convert pw s d (.int n) = fromIntFloatFn (.int n)) :
    ∃ q : ℚ, convert pw s d (.int n) = some (.fp (.finite q)) ∧
      |q - (n : ℚ)| * 2 ^ P ≤ |(n : ℚ)| := by
  refine ⟨(n : ℚ), h0, ?_⟩
  simp

theorem conv_c5_round (pw : ℕ) (s d : Ty) (n : ℤ) (P maxE B : ℕ)
    (h0 : convert pw s d (.int n) = castIntFpFn P maxE (.int n))
    (hp : 0 < P) (hB : B + 1 ≤ 4000)
    (hcap : 2 ^ (B + 1) + 2 ^ (B + 1 - P) ≤ 2 * ((2 ^ P - 1) * 2 ^ maxE))
    (hn : |n| ≤ 2 ^ B) :
    ∃ q : ℚ, convert pw s d (.int n) = some (.fp (.finite q)) ∧
      |q - (n : ℚ)| * 2 ^ P ≤ |(n : ℚ)| := by
  obtain ⟨q, hq, ha⟩ := castIntFp_abs_acc P maxE B hp hB hcap n hn
  exact ⟨q, h0.trans hq, ha⟩

theorem c5_excl {C : Prop} (hex : ¬(Ty.u128 = Ty.u128 ∧ Ty.f32 = Ty.f32)) : C :=
  (hex ⟨rfl, rfl⟩).elim

theorem f32MaxQ_eq_cast : f32MaxQ = ((2 ^ 128 - 2 ^ 104 : ℕ) : ℚ) := by
  rw [f32MaxQ, Nat.cast_sub (by norm_num)]
  push_cast
  norm_num


/-! Nearest-value optimality of round to nearest. -/

theorem rneQ_half_upper (x : ℚ) : (rneQ x : ℚ) ≤ x + 1/2 := by
  have hf1 : (⌊x⌋ : ℚ) ≤ x := Int.floor_le x
  have hf2 : x < ⌊x⌋ + 1 := Int.lt_floor_add_one x
  simp only [rneQ]
  split_ifs with h1 h2 h3 <;> push_cast <;> linarith

theorem rneQ_nearest (x : ℚ) (k : ℤ) : |(rneQ x : ℚ) - x| ≤ |(k : ℚ) - x| := by
  have hf1 : (⌊x⌋ : ℚ) ≤ x := Int.floor_le x
  have hf2 : x < ⌊x⌋ + 1 := Int.lt_floor_add_one x
  have hk1 : x - (k : ℚ) ≤ |(k : ℚ) - x| := by
    rw [abs_sub_comm]
    exact le_abs_self _
  have hk2 : (k : ℚ) - x ≤ |(k : ℚ) - x| := le_abs_self _
  have hkq : (k : ℚ) ≤ (⌊x⌋ : ℚ) ∨ ((⌊x⌋ : ℚ)) + 1 ≤ (k : ℚ) := by
    rcases (by omega : k ≤ ⌊x⌋ ∨ ⌊x⌋ + 1 ≤ k) with h | h
    · exact Or.inl (by exact_mod_cast h)
    · right
      exact_mod_cast h
  simp only [rneQ]
  split_ifs with h1 h2 h3 <;> push_cast <;> rw [abs_le] <;>
    rcases hkq with hk | hk <;>
    constructor <;>
    linarith [abs_nonneg ((k : ℚ) - x)]

theorem near_multiple (a r d m k : ℤ) (hd : 0 < d) (hr0 : 0 ≤ r) (hrd : r < d)
    (hm : m = a ∧ 2 * r ≤ d ∨ m = a + 1 ∧ d ≤ 2 * r) :
    |m * d - (d * a + r)| ≤ |k * d - (d * a + r)| := by
  have h1 := le_abs_self (k * d - (d * a + r))
  have h2 := neg_le_abs (k * d - (d * a + r))
  have hLa : |a * d - (d * a + r)| = r := by
    rw [show a * d - (d * a + r) = -r by ring, abs_neg, abs_of_nonneg hr0]
  have hLb : |(a + 1) * d - (d * a + r)| = d - r := by
    rw [show (a + 1) * d - (d * a + r) = d - r by ring]
    exact abs_of_nonneg (by omega)
  have hka : k ≤ a - 1 ∨ k = a ∨ k = a + 1 ∨ a + 2 ≤ k := by omega
  rcases hm with ⟨hmm, hc⟩ | ⟨hmm, hc⟩ <;> rw [hmm]
  · rw [hLa]
    rcases hka with hk | rfl | rfl | hk
    · have hmul : 1 * d ≤ (a - k) * d := mul_le_mul_of_nonneg_right (by omega) (le_of_lt hd)
      have he : d * a + r - k * d = (a - k) * d + r := by ring
      linarith
    · rw [hLa]
    · rw [hLb]
      omega
    · have hmul : 2 * d ≤ (k - a) * d := mul_le_mul_of_nonneg_right (by omega) (le_of_lt hd)
      have he : k * d - (d * a + r) = (k - a) * d - r := by ring
      linarith
  · rw [hLb]
    rcases hka with hk | rfl | rfl | hk
    · have hmul : 1 * d ≤ (a - k) * d := mul_le_mul_of_nonneg_right (by omega) (le_of_lt hd)
      have he : d * a + r - k * d = (a - k) * d + r := by ring
      linarith
    · rw [hLa]
      omega
    · rw [hLb]
    · have hmul : 2 * d ≤ (k - a) * d := mul_le_mul_of_nonneg_right (by omega) (le_of_lt hd)
      have he : k * d - (d * a + r) = (k - a) * d - r := by ring
      linarith

theorem rneNat_nearest (n d : ℕ) (hd : 0 < d) (k : ℤ) :
    |(rneNat n d : ℤ) * d - n| ≤ |k * d - n| := by
  obtain ⟨a, r, rfl, hr⟩ : ∃ a r, n = d * a + r ∧ r < d :=
    ⟨n / d, n % d, (Nat.div_add_mod n d).symm, Nat.mod_lt _ hd⟩
  have hdiv : (d * a + r) / d = a := by
    rw [Nat.mul_add_div hd, Nat.div_eq_of_lt hr]
    omega
  have hmod2 : (d * a + r) % d = r := by
    rw [Nat.mul_add_mod]
    exact Nat.mod_eq_of_lt hr
  have hm : ((rneNat (d * a + r) d : ℕ) : ℤ) = (a : ℤ) ∧ 2 * (r : ℤ) ≤ (d : ℤ) ∨
      ((rneNat (d * a + r) d : ℕ) : ℤ) = (a : ℤ) + 1 ∧ (d : ℤ) ≤ 2 * (r : ℤ) := by
    simp only [rneNat, hdiv, hmod2]
    split_ifs with h1 h2 h3
    · exact Or.inl ⟨by push_cast; ring, by exact_mod_cast h1.le⟩
    · exact Or.inr ⟨by push_cast; ring, by exact_mod_cast h2.le⟩
    · exact Or.inl ⟨by push_cast; ring, by omega⟩
    · exact Or.inr ⟨by push_cast; ring, by omega⟩
  have hcast : ((d * a + r : ℕ) : ℤ) = (d : ℤ) * a + r := by push_cast; ring
  rw [hcast]
  rcases hm with ⟨he, hc⟩ | ⟨he, hc⟩ <;> rw [he]
  · exact near_multiple (a : ℤ) (r : ℤ) (d : ℤ) (a : ℤ) k (by exact_mod_cast hd)
      (by positivity) (by exact_mod_cast hr) (Or.inl ⟨rfl, hc⟩)
  · exact near_multiple (a : ℤ) (r : ℤ) (d : ℤ) ((a : ℤ) + 1) k (by exact_mod_cast hd)
      (by positivity) (by exact_mod_cast hr) (Or.inr ⟨rfl, hc⟩)

theorem reprFp_neg {prec : ℕ} {minE : ℤ} {w : ℚ} (h : reprFp prec minE w) :
    reprFp prec minE (-w) := by
  obtain ⟨m, E, hm, hE, rfl⟩ := h
  exact ⟨-m, E, by rwa [abs_neg], hE, by push_cast; ring⟩

theorem isNearestFp_neg {prec : ℕ} {minE : ℤ} {x v : ℚ} (h : isNearestFp prec minE x v) :
    isNearestFp prec minE (-x) (-v) := by
  obtain ⟨hr, hn⟩ := h
  refine ⟨reprFp_neg hr, ?_⟩
  intro w hw
  have h1 := hn (-w) (reprFp_neg hw)
  calc |(-v) - (-x)| = |v - x| := by rw [show (-v) - (-x) = -(v - x) by ring, abs_neg]
    _ ≤ |(-w) - x| := h1
    _ = |w - (-x)| := by rw [show (-w) - x = -(w - (-x)) by ring, abs_neg]

theorem roundNatPos_nearest (prec maxE n : ℕ) (minE : ℤ) (v : ℚ)
    (hp : 0 < prec) (hfuel : n < 2 ^ 4000) (hminE : minE ≤ 0)
    (hs : roundNatPos prec maxE n = some v) :
    isNearestFp prec minE (n : ℚ) v := by
  by_cases hsmall : n < 2 ^ prec
  · rw [roundNatPos_small prec maxE n hsmall] at hs
    have hv : v = (n : ℚ) := (Option.some.inj hs).symm
    subst hv
    constructor
    · refine ⟨(n : ℤ), 0, ?_, hminE, ?_⟩
      · rw [abs_of_nonneg (Int.natCast_nonneg n)]
        exact_mod_cast hsmall
      · rw [zpow_zero, mul_one]
        push_cast
        ring
    · intro w _
      simp
  · push_neg at hsmall
    have hbgt : prec < natBits n := by
      have h2 : (2:ℕ) ^ prec < 2 ^ natBits n := lt_of_le_of_lt hsmall (natBits_high n hfuel)
      exact (Nat.pow_lt_pow_iff_right (by norm_num)).mp h2
    have hn0 : n ≠ 0 := by
      have : (0:ℕ) < 2 ^ prec := Nat.pos_pow_of_pos _ (by norm_num)
      omega
    set b := natBits n with hb
    set e := b - prec with he
    have he1 : 1 ≤ e := by omega
    have hdpos : 0 < (2:ℕ) ^ e := Nat.pos_pow_of_pos _ (by norm_num)
    set m := rneNat n (2 ^ e) with hm
    have hred : roundNatPos prec maxE n
        = if (2 ^ prec - 1) * 2 ^ maxE < m * 2 ^ e then none
          else some ((m * 2 ^ e : ℕ) : ℚ) := by
      simp only [roundNatPos, if_neg (not_lt.mpr hsmall), ← hb, ← he, ← hm]
    rw [hred] at hs
    split_ifs at hs with hov
    have hve : v = ((m * 2 ^ e : ℕ) : ℚ) := (Option.some.inj hs).symm
    have hnb_low : 2 ^ (b - 1) ≤ n := natBits_low n hn0
    have hnb_high : n < 2 ^ b := natBits_high n hfuel
    have hpow_be : (2:ℕ) ^ b = 2 ^ prec * 2 ^ e := by
      rw [← pow_add]
      congr 1
      omega
    have hbd := rneNat_bounds n (2 ^ e) hdpos
    have hmle : m ≤ 2 ^ prec := by
      by_contra hcon
      push_neg at hcon
      have hmul : (2 ^ prec + 1) * 2 ^ e ≤ m * 2 ^ e :=
        Nat.mul_le_mul_right _ (by omega)
      have hexp : (2 ^ prec + 1) * 2 ^ e = 2 ^ prec * 2 ^ e + 2 ^ e := by ring
      have hub : n < 2 ^ prec * 2 ^ e := by
        rw [← hpow_be]
        exact hnb_high
      have hb1 := hbd.1
      linarith
    have hsplit : (2:ℕ) ^ e = 2 * 2 ^ (e - 1) := by
      conv_lhs => rw [show e = (e - 1) + 1 by omega]
      rw [pow_succ]
      ring
    have haccZ : |(m : ℤ) * 2 ^ e - n| ≤ 2 ^ (e - 1) := by
      have h1z : 2 * ((m:ℤ) * 2 ^ e) ≤ 2 * n + 2 ^ e := by exact_mod_cast hbd.1
      have h2z : 2 * (n:ℤ) ≤ 2 * ((m:ℤ) * 2 ^ e) + 2 ^ e := by exact_mod_cast hbd.2
      have hsz : (2:ℤ) ^ e = 2 * 2 ^ (e - 1) := by exact_mod_cast hsplit
      rcases abs_cases ((m:ℤ) * 2 ^ e - n) with ⟨hab, _⟩ | ⟨hab, _⟩ <;> rw [hab] <;> omega
    have hacc : |v - (n:ℚ)| ≤ (2:ℚ) ^ (e - 1 : ℕ) := by
      have hvn : v - (n:ℚ) = (((m:ℤ) * 2 ^ e - n : ℤ) : ℚ) := by
        rw [hve]
        push_cast
        ring
      rw [hvn, ← Int.cast_abs]
      exact_mod_cast haccZ
    constructor
    · -- v is representable
      rcases lt_or_eq_of_le hmle with hmlt | hmeq
      · refine ⟨(m : ℤ), (e : ℤ), ?_, by omega, ?_⟩
        · rw [abs_of_nonneg (Int.natCast_nonneg m)]
          exact_mod_cast hmlt
        · rw [hve, zpow_natCast]
          push_cast
          ring
      · refine ⟨2 ^ (prec - 1), (e : ℤ) + 1, ?_, by omega, ?_⟩
        · rw [abs_of_nonneg (pow_nonneg (by norm_num) _)]
          exact_mod_cast Nat.pow_lt_pow_right (by norm_num) (by omega)
        · have hz : ((e:ℤ) + 1) = ((e + 1 : ℕ) : ℤ) := by push_cast; ring
          rw [hve, hmeq, hz, zpow_natCast]
          push_cast
          rw [← pow_add, ← pow_add]
          congr 1
          omega
    · -- v is nearest
      rintro w ⟨m', E, hm', hE, rfl⟩
      rcases le_or_lt (e : ℤ) E with hEe | hEe
      · set K : ℤ := m' * 2 ^ (E - (e:ℤ)).toNat with hK
        have hwK : (m' : ℚ) * 2 ^ E = (K : ℚ) * 2 ^ (e : ℕ) := by
          have h2 : ((2:ℚ) ^ ((E - (e:ℤ)).toNat : ℕ)) * 2 ^ (e : ℕ) = 2 ^ E := by
            rw [← zpow_natCast (2:ℚ) (E - (e:ℤ)).toNat, ← zpow_natCast (2:ℚ) e,
              ← zpow_add₀ (by norm_num : (2:ℚ) ≠ 0)]
            congr 1
            omega
          rw [hK]
          push_cast
          rw [← h2]
          ring
        rw [hwK]
        have hZ := rneNat_nearest n (2 ^ e) hdpos K
        have hcast1 : v - (n : ℚ) = (((m : ℤ) * 2 ^ e - n : ℤ) : ℚ) := by
          rw [hve]
          push_cast
          ring
        have hcast2 : (K : ℚ) * 2 ^ (e:ℕ) - (n : ℚ) = ((K * 2 ^ e - n : ℤ) : ℚ) := by
          push_cast
          ring
        rw [hcast1, hcast2, ← Int.cast_abs, ← Int.cast_abs]
        exact_mod_cast hZ
      · have hz1 : ((e:ℤ) - 1) = ((e - 1 : ℕ) : ℤ) := by omega
        have hm'le : (m' : ℚ) ≤ ((2 ^ prec - 1 : ℤ) : ℚ) := by
          have h1 : m' ≤ 2 ^ prec - 1 := by
            have h2 := (abs_lt.mp hm').2
            omega
          exact_mod_cast h1
        have hEpos : (0:ℚ) < 2 ^ E := zpow_pos (by norm_num) E
        have hstep1 : (m' : ℚ) * 2 ^ E ≤ ((2 ^ prec - 1 : ℤ) : ℚ) * 2 ^ E :=
          mul_le_mul_of_nonneg_right hm'le (le_of_lt hEpos)
        have hP1 : (0:ℚ) ≤ ((2 ^ prec - 1 : ℤ) : ℚ) := by
          have h1 : (1:ℤ) ≤ 2 ^ prec := one_le_pow₀ (by norm_num)
          have h2 : (0:ℤ) ≤ 2 ^ prec - 1 := by omega
          exact_mod_cast h2
        have hstep2 : ((2 ^ prec - 1 : ℤ) : ℚ) * 2 ^ E
            ≤ ((2 ^ prec - 1 : ℤ) : ℚ) * 2 ^ ((e:ℤ) - 1) :=
          mul_le_mul_of_nonneg_left (zpow_le_zpow_right₀ (by norm_num) (by omega)) hP1
        have hstep3 : ((2 ^ prec - 1 : ℤ) : ℚ) * 2 ^ ((e:ℤ) - 1)
            = (2:ℚ) ^ (b - 1 : ℕ) - 2 ^ (e - 1 : ℕ) := by
          rw [hz1, zpow_natCast]
          push_cast
          rw [sub_mul, one_mul, ← pow_add]
          have hexp2 : prec + (e - 1) = b - 1 := by omega
          rw [hexp2]
        have hnlow : (2:ℚ) ^ (b - 1 : ℕ) ≤ (n : ℚ) := by exact_mod_cast hnb_low
        have hwle : (m' : ℚ) * 2 ^ E ≤ (n : ℚ) - 2 ^ (e - 1 : ℕ) := by linarith
        calc |v - (n:ℚ)| ≤ (2:ℚ) ^ (e - 1 : ℕ) := hacc
          _ ≤ (n:ℚ) - (m' : ℚ) * 2 ^ E := by linarith
          _ ≤ |(m' : ℚ) * 2 ^ E - (n:ℚ)| := by
              rw [abs_sub_comm]
              exact le_abs_self _

theorem castIntFp_nearest (P maxE : ℕ) (minE : ℤ) (n : ℤ) (q : ℚ)
    (hp : 0 < P) (hminE : minE ≤ 0) (hfuel : n.natAbs < 2 ^ 4000)
    (hq : castIntFpFn P maxE (.int n) = some (.fp (.finite q))) :
    isNearestFp P minE (n : ℚ) q := by
  by_cases h0 : 0 ≤ n
  · rcases hro : roundNatPos P maxE n.toNat with _ | q'
    · rw [show castIntFpFn P maxE (.int n) = some (.fp (.inf false)) by
        simp [castIntFpFn, h0, hro]] at hq
      exact absurd hq (by simp)
    · have hq' : q' = q := by
        rw [show castIntFpFn P maxE (.int n) = some (.fp (.finite q')) by
          simp [castIntFpFn, h0, hro]] at hq
        simpa using hq
      subst hq'
      have hnear := roundNatPos_nearest P maxE n.toNat minE q' hp (by omega) hminE hro
      rwa [show ((n.toNat : ℕ) : ℚ) = (n : ℚ) by exact_mod_cast Int.toNat_of_nonneg h0] at hnear
  · rcases hro : roundNatPos P maxE (-n).toNat with _ | q'
    · rw [show castIntFpFn P maxE (.int n) = some (.fp (.inf true)) by
        simp [castIntFpFn, h0, hro]] at hq
      exact absurd hq (by simp)
    · have hq' : -q' = q := by
        rw [show castIntFpFn P maxE (.int n) = some (.fp (.finite (-q'))) by
          simp [castIntFpFn, h0, hro]] at hq
        simpa using hq
      have hnear := roundNatPos_nearest P maxE (-n).toNat minE q' hp (by omega) hminE hro
      have hc : (((-n).toNat : ℕ) : ℚ) = -(n : ℚ) := by
        have h1 : (((-n).toNat : ℕ) : ℤ) = -n := Int.toNat_of_nonneg (by omega)
        exact_mod_cast h1
      rw [hc] at hnear
      have hfin := isNearestFp_neg hnear
      rwa [neg_neg, hq'] at hfin

theorem castIntFp_u128_f32_nearest (n : ℤ) (h0 : 0 ≤ n) (hlt : n < 2 ^ 128 - 2 ^ 103) :
    ∃ q : ℚ, castIntFpFn 24 104 (.int n) = some (.fp (.finite q)) ∧
      isNearestFp 24 (-149) (n : ℚ) q := by
  obtain ⟨q, hq, _⟩ := (castIntFp_u128_f32 n h0 (by omega)).2 hlt
  have hfuel : n.natAbs < 2 ^ 4000 := by
    have h1 : (2:ℕ) ^ 128 ≤ 2 ^ 4000 := Nat.pow_le_pow_right (by norm_num) (by norm_num)
    omega
  exact ⟨q, hq, castIntFp_nearest 24 104 (-149) n q (by norm_num) (by norm_num) hfuel hq⟩

theorem floorLog2Q_lt (q : ℚ) (h0 : 0 < q) (hnum : q.num.toNat < 2 ^ 4000) :
    q < 2 ^ (floorLog2Q q + 1) := by
  have hnumpos : 0 < q.num := Rat.num_pos.mpr h0
  have hden0 : q.den ≠ 0 := by
    have := q.den_pos
    omega
  have hdenpos : (0:ℚ) < (q.den : ℚ) := by exact_mod_cast q.den_pos
  have hq : ((q.num : ℚ)) / (q.den : ℚ) = q := Rat.num_div_den q
  simp only [floorLog2Q]
  split_ifs with htest
  · set bn := natBits q.num.toNat with hbn
    set bd := natBits q.den with hbd
    have hbd1 : 0 < bd := natBits_pos _ hden0
    have hnh : q.num.toNat < 2 ^ bn := natBits_high _ hnum
    have hdl : 2 ^ (bd - 1) ≤ q.den := natBits_low _ hden0
    have hstep1 : (q.num : ℚ) < (2:ℚ) ^ (bn : ℕ) := by
      have h1 : ((q.num.toNat : ℕ) : ℚ) < ((2 ^ bn : ℕ) : ℚ) := by exact_mod_cast hnh
      have h2 : ((q.num.toNat : ℕ) : ℚ) = (q.num : ℚ) := by
        have h3 : ((q.num.toNat : ℕ) : ℤ) = q.num := Int.toNat_of_nonneg (le_of_lt hnumpos)
        exact_mod_cast h3
      rw [h2] at h1
      calc (q.num : ℚ) < ((2 ^ bn : ℕ) : ℚ) := h1
        _ = (2:ℚ) ^ (bn : ℕ) := by push_cast; ring
    have hstep2 : (2:ℚ) ^ (bd - 1 : ℕ) ≤ (q.den : ℚ) := by
      have h1 : ((2 ^ (bd - 1) : ℕ) : ℚ) ≤ ((q.den : ℕ) : ℚ) := by exact_mod_cast hdl
      calc (2:ℚ) ^ (bd - 1 : ℕ) = ((2 ^ (bd - 1) : ℕ) : ℚ) := by push_cast; ring
        _ ≤ (q.den : ℚ) := h1
    have hponn : (0:ℚ) < 2 ^ ((bn:ℤ) - bd + 1) := zpow_pos (by norm_num) _
    have hsplitpow : (2:ℚ) ^ ((bn:ℤ) - bd + 1) * 2 ^ ((bd - 1 : ℕ) : ℤ) = 2 ^ (bn : ℤ) := by
      rw [← zpow_add₀ (show (2:ℚ) ≠ 0 by norm_num)]
      congr 1
      omega
    have hlt : (q.num : ℚ) < (2:ℚ) ^ ((bn:ℤ) - bd + 1) * (q.den : ℚ) := by
      calc (q.num : ℚ) < (2:ℚ) ^ (bn : ℕ) := hstep1
        _ = (2:ℚ) ^ ((bn:ℤ) - bd + 1) * 2 ^ ((bd - 1 : ℕ) : ℤ) := by
            rw [hsplitpow, zpow_natCast]
        _ ≤ (2:ℚ) ^ ((bn:ℤ) - bd + 1) * (q.den : ℚ) := by
            apply mul_le_mul_of_nonneg_left ?_ (le_of_lt hponn)
            rw [zpow_natCast]
            exact hstep2
    have hfin : (q.num : ℚ) / (q.den : ℚ) < (2:ℚ) ^ ((bn:ℤ) - bd + 1) :=
      (div_lt_iff₀ hdenpos).mpr hlt
    rwa [hq] at hfin
  · have hnot : ¬ ((2:ℚ) ^ ((natBits q.num.toNat : ℤ) - natBits q.den) ≤ q) := fun hcon =>
      htest ((twoPowLe_iff q _ h0).mp hcon)
    push_neg at hnot
    have hE : ((natBits q.num.toNat : ℤ) - natBits q.den - 1) + 1
        = (natBits q.num.toNat : ℤ) - natBits q.den := by ring
    rw [hE]
    exact hnot

theorem num_toNat_lt (y : ℚ) (hy : y < (2:ℚ) ^ 128 - 2 ^ 103) (hden : y.den ≤ 2 ^ 1074) :
    y.num.toNat < 2 ^ 4000 := by
  rcases le_or_lt y.num 0 with h0 | h0
  · have h1 : y.num.toNat = 0 := by omega
    rw [h1]
    exact Nat.pos_pow_of_pos _ (by norm_num)
  · have hq : ((y.num : ℚ)) / (y.den : ℚ) = y := Rat.num_div_den y
    have hdenpos : (0:ℚ) < (y.den : ℚ) := by exact_mod_cast y.den_pos
    have hnq : y * (y.den : ℚ) = (y.num : ℚ) := (eq_div_iff (ne_of_gt hdenpos)).mp hq.symm
    have hy128 : y < (2:ℚ) ^ (128:ℕ) := lt_of_lt_of_le hy (by norm_num)
    have hdq : (y.den : ℚ) ≤ ((2 ^ 1074 : ℕ) : ℚ) := by exact_mod_cast hden
    have hypos : 0 < y := Rat.num_pos.mp h0
    have h1 : (y.num : ℚ) ≤ (2:ℚ) ^ (128:ℕ) * ((2 ^ 1074 : ℕ) : ℚ) := by
      rw [← hnq]
      exact mul_le_mul (le_of_lt hy128) hdq (le_of_lt hdenpos) (pow_nonneg (by norm_num) _)
    have h2 : (y.num : ℚ) ≤ ((2 ^ 1202 : ℤ) : ℚ) := by
      calc (y.num : ℚ) ≤ (2:ℚ) ^ (128:ℕ) * ((2 ^ 1074 : ℕ) : ℚ) := h1
        _ = ((2 ^ 1202 : ℤ) : ℚ) := by
            push_cast
            rw [← pow_add]
    have h3 : y.num ≤ 2 ^ 1202 := by exact_mod_cast h2
    have h4 : (2:ℕ) ^ 1202 < 2 ^ 4000 := Nat.pow_lt_pow_right (by norm_num) (by norm_num)
    omega

theorem roundRatPosF32_finite (q : ℚ) (h0 : 0 < q) (hq : q < (2:ℚ) ^ 128 - 2 ^ 103)
    (hden : q.den < 2 ^ 4000) (hnum : q.num.toNat < 2 ^ 4000) :
    ∃ v : ℚ, roundRatPosF32 q = some v ∧ isNearestFp 24 (-149) q v := by
  have hL1 := floorLog2Q_le q h0 hden
  have hL2 := floorLog2Q_lt q h0 hnum
  set L := floorLog2Q q with hLdef
  set e : ℤ := max (-149) (L - 23) with hedef
  have he149 : -149 ≤ e := le_max_left _ _
  have heL23 : L - 23 ≤ e := le_max_right _ _
  have hepos : (0:ℚ) < 2 ^ e := zpow_pos (by norm_num) e
  have htwo : (2:ℚ) ≠ 0 := by norm_num
  have hLle : L ≤ 127 := by
    by_contra hcon
    push_neg at hcon
    have h1 : (2:ℚ) ^ (128:ℤ) ≤ 2 ^ L := zpow_le_zpow_right₀ (by norm_num) (by omega)
    have h2 : (2:ℚ) ^ (128:ℤ) = 2 ^ (128:ℕ) := by
      rw [show ((128:ℤ)) = ((128:ℕ):ℤ) from rfl, zpow_natCast]
    have h3 : (0:ℚ) < 2 ^ (103:ℕ) := pow_pos (by norm_num) _
    linarith
  have hele : e ≤ 104 := by omega
  have hxlt : q / 2 ^ e < (2:ℚ) ^ (24:ℤ) := by
    rw [div_lt_iff₀ hepos, ← zpow_add₀ htwo]
    calc q < 2 ^ (L + 1) := hL2
      _ ≤ 2 ^ (24 + e) := zpow_le_zpow_right₀ (by norm_num) (by omega)
  have hxpos : 0 < q / 2 ^ e := div_pos h0 hepos
  set m := rneQ (q / 2 ^ e) with hmdef
  have hm_up : (m : ℚ) ≤ q / 2 ^ e + 1/2 := rneQ_half_upper _
  have hm_lo : q / 2 ^ e - 1/2 ≤ (m : ℚ) := rneQ_half_lower _
  have htwo24 : (2:ℚ) ^ (24:ℤ) = ((2 ^ 24 : ℤ) : ℚ) := by
    rw [show ((24:ℤ)) = ((24:ℕ):ℤ) from rfl, zpow_natCast]
    push_cast
    ring
  have hm0 : 0 ≤ m := by
    by_contra hcon
    push_neg at hcon
    have h1 : (m:ℚ) ≤ ((-1 : ℤ) : ℚ) := by exact_mod_cast (by omega : m ≤ -1)
    norm_num at h1
    linarith
  have hm24 : m ≤ 2 ^ 24 := by
    by_contra hcon
    push_neg at hcon
    have h1 : ((2 ^ 24 + 1 : ℤ) : ℚ) ≤ (m:ℚ) := by exact_mod_cast (by omega : 2 ^ 24 + 1 ≤ m)
    rw [htwo24] at hxlt
    push_cast at h1
    push_cast at hxlt
    linarith
  have hfac : ∀ c : ℤ, (c:ℚ) * 2 ^ e - q = ((c:ℚ) - q / 2 ^ e) * 2 ^ e := by
    intro c
    have hdm : q / 2 ^ e * 2 ^ e = q := div_mul_cancel₀ q (ne_of_gt hepos)
    calc (c:ℚ) * 2 ^ e - q = (c:ℚ) * 2 ^ e - q / 2 ^ e * 2 ^ e := by rw [hdm]
      _ = ((c:ℚ) - q / 2 ^ e) * 2 ^ e := by ring
  have hval : (m : ℚ) * 2 ^ e ≤ f32MaxQ := by
    rcases lt_or_eq_of_le hele with he103 | he104
    · have h1 : (m:ℚ) ≤ ((2 ^ 24 : ℤ) : ℚ) := by exact_mod_cast hm24
      have h2 : (m:ℚ) * 2 ^ e ≤ ((2 ^ 24 : ℤ) : ℚ) * 2 ^ e :=
        mul_le_mul_of_nonneg_right h1 (le_of_lt hepos)
      have h2b : (0:ℚ) ≤ ((2 ^ 24 : ℤ) : ℚ) := by
        rw [← htwo24]
        exact le_of_lt (zpow_pos (by norm_num) _)
      have h3 : ((2 ^ 24 : ℤ) : ℚ) * 2 ^ e ≤ ((2 ^ 24 : ℤ) : ℚ) * 2 ^ (103:ℤ) :=
        mul_le_mul_of_nonneg_left (zpow_le_zpow_right₀ (by norm_num) (by omega)) h2b
      have h4 : ((2 ^ 24 : ℤ) : ℚ) * 2 ^ (103:ℤ) ≤ f32MaxQ := by
        rw [show ((103:ℤ)) = ((103:ℕ):ℤ) from rfl, zpow_natCast, f32MaxQ]
        push_cast
        norm_num
      linarith
    · have he2 : (2:ℚ) ^ e = 2 ^ (104:ℕ) := by
        rw [he104, show ((104:ℤ)) = ((104:ℕ):ℤ) from rfl, zpow_natCast]
      have hx2 : q / 2 ^ e < (2:ℚ) ^ (24:ℕ) - 1/2 := by
        rw [div_lt_iff₀ hepos, he2]
        calc q < (2:ℚ) ^ 128 - 2 ^ 103 := hq
          _ = ((2:ℚ) ^ (24:ℕ) - 1/2) * 2 ^ (104:ℕ) := by norm_num
      have hm2 : m ≤ 2 ^ 24 - 1 := by
        have h1 : (m:ℚ) < ((2 ^ 24 : ℤ) : ℚ) := by
          rw [show ((2 ^ 24 : ℤ) : ℚ) = (2:ℚ) ^ (24:ℕ) by push_cast; ring]
          linarith
        have h2 : m < 2 ^ 24 := by exact_mod_cast h1
        omega
      have h3 : (m:ℚ) ≤ ((2 ^ 24 - 1 : ℤ) : ℚ) := by exact_mod_cast hm2
      have h4 : (m:ℚ) * 2 ^ e ≤ ((2 ^ 24 - 1 : ℤ) : ℚ) * 2 ^ e :=
        mul_le_mul_of_nonneg_right h3 (le_of_lt hepos)
      have h5 : ((2 ^ 24 - 1 : ℤ) : ℚ) * 2 ^ e = f32MaxQ := by
        rw [he2, f32MaxQ]
        push_cast
        norm_num
      linarith
  have hsome : roundRatPosF32 q = some ((m : ℚ) * 2 ^ e) := by
    simp only [roundRatPosF32, ← hLdef, ← hedef, ← hmdef, if_neg (not_lt.mpr hval)]
  refine ⟨(m : ℚ) * 2 ^ e, hsome, ?_, ?_⟩
  · rcases lt_or_eq_of_le hm24 with hmlt | hmeq
    · exact ⟨m, e, by rwa [abs_of_nonneg hm0], he149, rfl⟩
    · refine ⟨2 ^ 23, e + 1, ?_, by omega, ?_⟩
      · rw [abs_of_nonneg (pow_nonneg (by norm_num) _)]
        norm_num
      · rw [hmeq, zpow_add_one₀ htwo]
        push_cast
        ring
  · rintro w ⟨m', E, hm', hE, rfl⟩
    rcases le_or_lt e E with hEe | hEe
    · set K : ℤ := m' * 2 ^ (E - e).toNat with hK
      have h2 : ((2:ℚ) ^ ((E - e).toNat : ℕ)) * 2 ^ e = 2 ^ E := by
        rw [← zpow_natCast (2:ℚ) (E - e).toNat, ← zpow_add₀ htwo]
        congr 1
        omega
      have hwK : (m' : ℚ) * 2 ^ E = (K : ℚ) * 2 ^ e := by
        rw [hK]
        push_cast
        rw [← h2]
        ring
      rw [hwK]
      calc |(m:ℚ) * 2 ^ e - q| = |(m:ℚ) - q / 2 ^ e| * 2 ^ e := by
            rw [hfac m, abs_mul, abs_of_pos hepos]
        _ ≤ |(K:ℚ) - q / 2 ^ e| * 2 ^ e :=
            mul_le_mul_of_nonneg_right (rneQ_nearest _ K) (le_of_lt hepos)
        _ = |(K:ℚ) * 2 ^ e - q| := by rw [hfac K, abs_mul, abs_of_pos hepos]
    · have hene : e = L - 23 := by
        rcases max_cases (-149:ℤ) (L - 23) with ⟨h1, h2⟩ | ⟨h1, h2⟩ <;> omega
      have hesplit : (2:ℚ) ^ e = 2 ^ (e - 1) * 2 := by
        rw [← zpow_add_one₀ htwo]
        congr 1
        ring
      have hacc : |(m:ℚ) * 2 ^ e - q| ≤ 2 ^ (e - 1) := by
        have habs : |(m:ℚ) - q / 2 ^ e| ≤ 1/2 := by
          rw [abs_le]
          constructor <;> linarith
        calc |(m:ℚ) * 2 ^ e - q| = |(m:ℚ) - q / 2 ^ e| * 2 ^ e := by
              rw [hfac m, abs_mul, abs_of_pos hepos]
          _ ≤ 1/2 * 2 ^ e := mul_le_mul_of_nonneg_right habs (le_of_lt hepos)
          _ = 2 ^ (e - 1) := by
              rw [hesplit]
              ring
      have hwb : (m':ℚ) * 2 ^ E ≤ q - 2 ^ (e - 1) := by
        have hm'2 := (abs_lt.mp hm').2
        have h1 : (m':ℚ) ≤ ((2 ^ 24 - 1 : ℤ) : ℚ) := by
          exact_mod_cast (by omega : m' ≤ 2 ^ 24 - 1)
        have hEpos : (0:ℚ) < 2 ^ E := zpow_pos (by norm_num) E
        have h2 : (m':ℚ) * 2 ^ E ≤ ((2 ^ 24 - 1 : ℤ) : ℚ) * 2 ^ E :=
          mul_le_mul_of_nonneg_right h1 (le_of_lt hEpos)
        have h2b : (0:ℚ) ≤ ((2 ^ 24 - 1 : ℤ) : ℚ) := by
          have hb1 : (0:ℤ) ≤ 2 ^ 24 - 1 := by norm_num
          exact_mod_cast hb1
        have h3 : ((2 ^ 24 - 1 : ℤ) : ℚ) * 2 ^ E ≤ ((2 ^ 24 - 1 : ℤ) : ℚ) * 2 ^ (e - 1) :=
          mul_le_mul_of_nonneg_left (zpow_le_zpow_right₀ (by norm_num) (by omega)) h2b
        have h4 : ((2 ^ 24 - 1 : ℤ) : ℚ) * 2 ^ (e - 1) = 2 ^ L - 2 ^ (e - 1) := by
          have hh : ((2 ^ 24 - 1 : ℤ) : ℚ) = (2:ℚ) ^ (24:ℤ) - 1 := by
            rw [htwo24]
            push_cast
            ring
          rw [hh, sub_mul, one_mul, ← zpow_add₀ htwo]
          have hexp : (24:ℤ) + (e - 1) = L := by omega
          rw [hexp]
        linarith [hL1]
      calc |(m:ℚ) * 2 ^ e - q| ≤ 2 ^ (e - 1) := hacc
        _ ≤ q - (m':ℚ) * 2 ^ E := by linarith
        _ ≤ |(m':ℚ) * 2 ^ E - q| := by
            rw [abs_sub_comm]
            exact le_abs_self _

theorem castF64F32_finite (x : ℚ) (hx : |x| < (2:ℚ) ^ 128 - 2 ^ 103) (hden : x.den ≤ 2 ^ 1074) :
    ∃ v : ℚ, castF64F32 (.finite x) = .finite v ∧ isNearestFp 24 (-149) x v := by
  have hden4 : x.den < 2 ^ 4000 :=
    lt_of_le_of_lt hden (Nat.pow_lt_pow_right (by norm_num) (by norm_num))
  rcases lt_trichotomy x 0 with hneg | hzero | hpos
  · have hax : |x| = -x := abs_of_neg hneg
    have hlt : -x < (2:ℚ) ^ 128 - 2 ^ 103 := by rw [← hax]; exact hx
    have hnum := num_toNat_lt (-x) hlt (by rw [Rat.neg_den]; exact hden)
    obtain ⟨v, hv, hnear⟩ := roundRatPosF32_finite (-x) (by linarith) hlt
      (by rw [Rat.neg_den]; exact hden4) hnum
    refine ⟨-v, ?_, ?_⟩
    · simp only [castF64F32, if_neg (ne_of_lt hneg), if_neg (not_lt.mpr (le_of_lt hneg)), hv]
    · have h1 := isNearestFp_neg hnear
      rwa [neg_neg] at h1
  · subst hzero
    refine ⟨0, by simp [castF64F32], ?_, ?_⟩
    · exact ⟨0, 0, by norm_num, by norm_num, by norm_num⟩
    · intro w _
      simp
  · have hax : |x| = x := abs_of_pos hpos
    have hlt : x < (2:ℚ) ^ 128 - 2 ^ 103 := by rw [← hax]; exact hx
    have hnum := num_toNat_lt x hlt hden
    obtain ⟨v, hv, hnear⟩ := roundRatPosF32_finite x hpos hlt hden4 hnum
    refine ⟨v, ?_, hnear⟩
    simp only [castF64F32, if_neg (ne_of_gt hpos), if_pos hpos, hv]

theorem conv_c5_exact2 (pw : ℕ) (s d : Ty) (n : ℤ) (P : ℕ) (minE : ℤ)
    (h0 : convert pw s d (.int n) = fromIntFloatFn (.int n))
    (hminE : minE ≤ 0) (hn : |n| < 2 ^ P) :
    ∃ q : ℚ, convert pw s d (.int n) = some (.fp (.finite q)) ∧
      isNearestFp P minE (n : ℚ) q := by
  refine ⟨(n : ℚ), h0, ⟨n, 0, hn, hminE, by rw [zpow_zero, mul_one]⟩, ?_⟩
  intro w _
  simp

theorem conv_c5_round2 (pw : ℕ) (s d : Ty) (n : ℤ) (P maxE B : ℕ) (minE : ℤ)
    (h0 : convert pw s d (.int n) = castIntFpFn P maxE (.int n))
    (hp : 0 < P) (hB : B + 1 ≤ 4000) (hminE : minE ≤ 0)
    (hcap : 2 ^ (B + 1) + 2 ^ (B + 1 - P) ≤ 2 * ((2 ^ P - 1) * 2 ^ maxE))
    (hn : |n| ≤ 2 ^ B) :
    ∃ q : ℚ, convert pw s d (.int n) = some (.fp (.finite q)) ∧
      isNearestFp P minE (n : ℚ) q := by
  obtain ⟨q, hq, _⟩ := castIntFp_abs_acc P maxE B hp hB hcap n hn
  have hfuel : n.natAbs < 2 ^ 4000 := by
    have h1 : (2:ℕ) ^ (B + 1) ≤ 2 ^ 4000 := Nat.pow_le_pow_right (by norm_num) hB
    have h2 : (2:ℕ) ^ B < 2 ^ (B + 1) := Nat.pow_lt_pow_right (by norm_num) (by omega)
    have h3 : ((2 ^ B : ℕ) : ℤ) = 2 ^ B := by push_cast; ring
    have hn' : ((n.natAbs : ℕ) : ℤ) ≤ 2 ^ B := by
      rw [Int.abs_eq_natAbs] at hn
      exact hn
    omega
  exact ⟨q, h0.trans hq, castIntFp_nearest P maxE minE n q hp hminE hfuel hq⟩

/-- C5 counterexample: the u128 value 2^128 - 2^104 + 1 strictly exceeds the
largest finite f32 value f32MaxQ = 2^128 - 2^104, yet the conversion rounds
DOWN to that finite maximum rather than saturating to infinity, because
Rust's `as` cast rounds to nearest and the value is within half an ulp of
the finite maximum. -/
theorem thm_int_to_float_counterexample :
    (0 : ℤ) ≤ 2 ^ 128 - 2 ^ 104 + 1 ∧
    (2 ^ 128 - 2 ^ 104 + 1 : ℤ) ≤ Ty.hi 64 .u128 ∧
    f32MaxQ < ((2 ^ 128 - 2 ^ 104 + 1 : ℕ) : ℚ) ∧
    convert 64 .u128 .f32 (.int (2 ^ 128 - 2 ^ 104 + 1)) = some (.fp (.finite f32MaxQ)) ∧
    convert 64 .u128 .f32 (.int (2 ^ 128 - 2 ^ 104 + 1)) ≠ some (.fp (.inf false)) := by
  refine ⟨by decide, by decide, ?_, ?_, by decide⟩
  · rw [f32MaxQ_eq_cast]
    exact_mod_cast (by norm_num : (2 ^ 128 - 2 ^ 104 : ℕ) < 2 ^ 128 - 2 ^ 104 + 1)
  · rw [f32MaxQ_eq_cast]
    decide

/-- C5 (amended).  Integer-to-float and f64-to-f32 conversions saturate to
the correctly signed infinity exactly when the value ROUNDS (to nearest)
beyond the destination's finite range, not whenever its magnitude exceeds
the finite maximum: (A) u128 to f32 yields +infinity exactly for values at
or above 2^128 - 2^103 (the midpoint of the last ulp), even though the
finite maximum is the smaller 2^128 - 2^104; (B) a u128 value below that
threshold converts to a nearest representable f32 value (finite, not an
infinity); (C) a finite f64 value (every finite f64 has reduced
denominator at most 2^1074) maps to the correctly signed infinity exactly
when its magnitude is at or above the same threshold, and otherwise to a
nearest representable f32 value; (D) every other integer-to-float
conversion maps every in-range value to a nearest representable value of
the destination (f32: 24 mantissa bits, smallest ulp 2^(-149); f64: 53
mantissa bits, smallest ulp 2^(-1074)), never an infinity; and (E)
u128::MAX converts to positive infinity. -/
theorem thm_int_to_float_amended (pw : ℕ) (hpw : PW pw) :
    (∀ n : ℤ, 0 ≤ n → n ≤ Ty.hi pw .u128 →
      (convert pw .u128 .f32 (.int n) = some (.fp (.inf false)) ↔ 2 ^ 128 - 2 ^ 103 ≤ n)) ∧
    (∀ n : ℤ, 0 ≤ n → n < 2 ^ 128 - 2 ^ 103 →
      ∃ q : ℚ, convert pw .u128 .f32 (.int n) = some (.fp (.finite q)) ∧
        isNearestFp 24 (-149) (n : ℚ) q) ∧
    (∀ x : ℚ, x.den ≤ 2 ^ 1074 →
      ((convert pw .f64 .f32 (.fp (.finite x)) = some (.fp (.inf (decide (x < 0)))) ↔
          (2:ℚ) ^ 128 - 2 ^ 103 ≤ |x|) ∧
        (|x| < (2:ℚ) ^ 128 - 2 ^ 103 →
          ∃ v : ℚ, convert pw .f64 .f32 (.fp (.finite x)) = some (.fp (.finite v)) ∧
            isNearestFp 24 (-149) x v))) ∧
    (∀ s d : Ty, s.isInt = true → d.isFloat = true → ¬(s = .u128 ∧ d = .f32) →
      ∀ n : ℤ, Ty.lo pw s ≤ n → n ≤ Ty.hi pw s →
        ∃ q : ℚ, convert pw s d (.int n) = some (.fp (.finite q)) ∧
          isNearestFp (if d = .f32 then 24 else 53) (if d = .f32 then -149 else -1074)
            (n : ℚ) q) ∧
    convert pw .u128 .f32 (.int (2 ^ 128 - 1)) = some (.fp (.inf false)) := by
  refine ⟨?_, ?_, ?_, ?_, ?_⟩
  · intro n h0 h2
    have hup : Ty.hi pw .u128 = 2 ^ 128 - 1 := rfl
    exact (castIntFp_u128_f32 n h0 (by omega)).1
  · intro n h0 hlt
    obtain ⟨q, hq, hnear⟩ := castIntFp_u128_f32_nearest n h0 hlt
    exact ⟨q, hq, hnear⟩
  · intro x hdx
    constructor
    · constructor
      · intro hconv
        by_contra hlt
        push_neg at hlt
        obtain ⟨v, hv, _⟩ := castF64F32_finite x hlt hdx
        have hcv : convert pw .f64 .f32 (.fp (.finite x)) = some (.fp (.finite v)) := by
          show some (Val.fp (castF64F32 (Fp.finite x))) = some (Val.fp (Fp.finite v))
          rw [hv]
        rw [hcv] at hconv
        simp at hconv
      · intro hxge
        show some (Val.fp (castF64F32 (Fp.finite x))) = some (Val.fp (Fp.inf (decide (x < 0))))
        rw [castF64F32_overflow x hxge hdx]
    · intro hlt
      obtain ⟨v, hv, hnear⟩ := castF64F32_finite x hlt hdx
      refine ⟨v, ?_, hnear⟩
      show some (Val.fp (castF64F32 (Fp.finite x))) = some (Val.fp (Fp.finite v))
      rw [hv]
  · intro s d hs hd hex n h1 h2
    rcases hpw with rfl | rfl | rfl <;> cases s <;> cases d <;>
      first
        | exact absurd hs (by decide)
        | exact absurd hd (by decide)
        | exact c5_excl hex
        | exact conv_c5_exact2 _ _ _ n _ _ (by rfl) (by decide)
            (abs_lt.mpr ⟨lt_of_lt_of_le (by decide) h1, lt_of_le_of_lt h2 (by decide)⟩)
        | exact conv_c5_round2 _ _ _ n _ 104 127 _ (by rfl) (by decide) (by decide)
            (by decide) (by decide)
            (abs_le.mpr ⟨le_trans (by decide) h1, le_trans h2 (by decide)⟩)
        | exact conv_c5_round2 _ _ _ n _ 971 128 _ (by rfl) (by decide) (by decide)
            (by decide) (by decide)
            (abs_le.mpr ⟨le_trans (by decide) h1, le_trans h2 (by decide)⟩)
  · exact ((castIntFp_u128_f32 (2 ^ 128 - 1) (by norm_num) (by norm_num)).1).mpr (by norm_num)

theorem thm_int_to_float_amended_witness :
    PW 64 ∧ convert 64 .u128 .f32 (.int (2 ^ 128 - 1)) = some (.fp (.inf false)) :=
  ⟨Or.inr (Or.inr rfl), (thm_int_to_float_amended 64 (Or.inr (Or.inr rfl))).2.2.2.2⟩

end Saturate
